import Mathlib

/-!
# Grid, regions and seed masks of the nanobot trace writer

A shallow embedding of `src/Solver/trace_writer.h` and of the reachability
solver of `src/Solver/stupid2.cpp`.

* A C++ `int` is an `Int`.  Where the source computes with coordinates that
  may be arbitrary (`Point::is_near`, `1 << dim`) the result is reduced to
  32-bit two's complement by `wrap32`.  Table indices and cell counts of a
  `Matrix` stay below `kMaxR ^ 3 = 15625000`, so they are exact.
* An `i64` seed mask is its 64-bit two's complement pattern, a `Nat` below
  `2 ^ 64`; arithmetic on masks is reduced modulo `2 ^ 64`.
* `Assert` is a macro of `common.h`, which is not among the sources at hand;
  the spec makes a violated contract fatal.  A function that can fail an
  assertion returns an `Option`, and `none` is the failed assertion.
* The arrays `m` and `sums` are total functions of three `Int` indices;
  the source only reads them at indices inside `[0, R)`.
* The `while` loop of `StupidSolver2::BFS` takes an iteration budget; that a
  budget above `R^3` always suffices is proved, not assumed.
* `Deltas26()` and `reach_cell` are declared in the header and defined outside
  the sources at hand: the direction list and the end point of the movement
  planner are parameters of the solver.
-/

namespace Solver

/-! ## Machine integers -/

/-- Two's complement reduction of an exact result to the range of `int`. -/
def wrap32 (v : Int) : Int := (v + 2147483648) % 4294967296 - 2147483648

/-- The `int` expression `v << k`; C++ defines it for shift counts `0 ≤ k < 32`
only. -/
def shl32 (v k : Int) : Int := wrap32 (v * 2 ^ k.toNat)

/-- Modelled from the spec: the macro `Abs` of `common.h`, which is not part of
the sources at hand; the spec reads it as the absolute difference of two
coordinates.  The negation is an `int` negation. -/
def Abs (v : Int) : Int := if v < 0 then wrap32 (-v) else v

/-- The value of a C++ comparison used as an `int`. -/
def b2i (b : Bool) : Int := if b then 1 else 0

/-- Source: `sign`. -/
def sign (x : Int) : Int := if x < 0 then -1 else if x = 0 then 0 else 1

/-! ## Points -/

/-- Source: `struct Point`. -/
structure Point where
  x : Int
  y : Int
  z : Int
deriving DecidableEq, Repr

/-- Source: `Point::Origin`. -/
def Point.Origin : Point := ⟨0, 0, 0⟩

/-- Source: `Point::is_near`. -/
def Point.is_near (p other : Point) : Bool :=
  let a := Abs (wrap32 (p.x - other.x))
  let b := Abs (wrap32 (p.y - other.y))
  let c := Abs (wrap32 (p.z - other.z))
  let s := wrap32 (wrap32 (a + b) + c)
  decide (a ≤ 1) && decide (b ≤ 1) && decide (c ≤ 1) && decide (s ≤ 2) && decide (s > 0)

/-- Source: `Point::n_diff`. -/
def Point.n_diff (p other : Point) : Int :=
  b2i (p.x != other.x) + b2i (p.y != other.y) + b2i (p.z != other.z)

/-! ## Regions -/

/-- Source: the data members `a`, `b` of `struct Region`. -/
structure Region where
  a : Point
  b : Point
deriving DecidableEq, Repr

/-- Source: the constructor `Region::Region(pa, pb)`. -/
def Region.ctor (pa pb : Point) : Region :=
  { a := ⟨min pa.x pb.x, min pa.y pb.y, min pa.z pb.z⟩
    b := ⟨max pa.x pb.x, max pa.y pb.y, max pa.z pb.z⟩ }

/-- Source: the lambda `f` inside `Region::opposite`. -/
def Region.opposite_f (a b c : Int) : Option Int :=
  if c = a then some b
  else if c = b then some a
  else none

/-- Source: `Region::opposite`. -/
def Region.opposite (r : Region) (p : Point) : Option Point :=
  match Region.opposite_f r.a.x r.b.x p.x, Region.opposite_f r.a.y r.b.y p.y,
        Region.opposite_f r.a.z r.b.z p.z with
  | some x, some y, some z => some ⟨x, y, z⟩
  | _, _, _ => none

/-- Source: `Region::contains`. -/
def Region.contains (r : Region) (p : Point) : Bool :=
  decide (r.a.x ≤ p.x) && decide (p.x ≤ r.b.x) &&
  decide (r.a.y ≤ p.y) && decide (p.y ≤ r.b.y) &&
  decide (r.a.z ≤ p.z) && decide (p.z ≤ r.b.z)

/-- Source: `Region::get_dim`. -/
def Region.get_dim (r : Region) : Int := r.a.n_diff r.b

/-- Source: `Region::get_bots`. -/
def Region.get_bots (r : Region) : Int := shl32 1 r.get_dim

/-- Source: `kMaxBots`. -/
def kMaxBots : Int := 40

/-- Source: `kMaxR`. -/
def kMaxR : Int := 250

/-- Source: `get_region`. -/
def get_region (p : Point) (s : Int) : Region :=
  let base : Point := ⟨p.x * s, p.y * s, p.z * s⟩
  let opp : Point := ⟨p.x * s + s - 1, p.y * s + s - 1, p.z * s + s - 1⟩
  Region.ctor base opp

/-! ## The grid -/

/-- Source: the data members of `struct Matrix`.  `sums` is `none` for the null
pointer. -/
structure Matrix where
  R : Int
  m : Int → Int → Int → Int
  sums : Option (Int → Int → Int → Int) := none
  XL : Int := -1
  XR : Int := -1
  ZL : Int := -1
  ZR : Int := -1

/-- Source: `Matrix::is_valid(p)`. -/
def Matrix.is_valid (M : Matrix) (p : Point) : Bool :=
  decide (p.x ≥ 0) && decide (p.y ≥ 0) && decide (p.z ≥ 0) &&
  decide (p.x < M.R) && decide (p.y < M.R) && decide (p.z < M.R)

/-- Source: `Matrix::is_valid(p, s)`. -/
def Matrix.is_valid_s (M : Matrix) (p : Point) (s : Int) : Bool :=
  let N := Int.tdiv M.R s
  decide (p.x ≥ 0) && decide (p.y ≥ 0) && decide (p.z ≥ 0) &&
  decide (p.x < N) && decide (p.y < N) && decide (p.z < N)

/-- Source: `Matrix::get_sum`. -/
def Matrix.get_sum (M : Matrix) (r : Region) : Option Int :=
  match M.sums with
  | none => none
  | some sums =>
    let X := r.b.x
    let Y := r.b.y
    let Z := r.b.z
    let x := r.a.x - 1
    let y := r.a.y - 1
    let z := r.a.z - 1
    let res := sums X Y Z
    let res :=
      if x > 0 then
        let res := res - sums x Y Z
        let res :=
          if y > 0 then
            let res := res + sums x y Z
            if z > 0 then res - sums x y z else res
          else res
        if z > 0 then res + sums x Y z else res
      else res
    let res :=
      if y > 0 then
        let res := res - sums X y Z
        if z > 0 then res + sums X y z else res
      else res
    let res := if z > 0 then res - sums X Y z else res
    some res

/-- Source: `Matrix::check_b`. -/
def Matrix.check_b (M : Matrix) (p : Point) (s : Int) : Option Bool :=
  let r := get_region p s
  (M.get_sum r).map fun v => decide (v = s * s * s)

/-- Source: `Matrix::get_filled_count`; the three loops run over `0 .. R - 1`. -/
def Matrix.get_filled_count (M : Matrix) : Int :=
  (List.range M.R.toNat).foldl (fun (res : Int) (x : Nat) =>
    (List.range M.R.toNat).foldl (fun (res : Int) (y : Nat) =>
      (List.range M.R.toNat).foldl (fun (res : Int) (z : Nat) =>
        if M.m x y z ≠ 0 then res + 1 else res) res) res) 0

/-! ## Reference counts -/

/-- Every cell of the grid `[0, R)^3`, once. -/
def Matrix.cells (M : Matrix) : List Point :=
  (List.range M.R.toNat).flatMap fun (x : Nat) =>
    (List.range M.R.toNat).flatMap fun (y : Nat) =>
      (List.range M.R.toNat).map fun (z : Nat) => (⟨x, y, z⟩ : Point)

/-- The number of filled cells `p` of the grid with `r.contains(p)`, by
enumeration. -/
def Matrix.count_filled (M : Matrix) (r : Region) : Nat :=
  M.cells.countP fun p => r.contains p && decide (M.m p.x p.y p.z ≠ 0)

/-- The table `sums` is present and is the inclusive prefix-sum table:
`sums[x][y][z]` is the number of filled cells `(i, j, k)` with `i ≤ x`,
`j ≤ y`, `k ≤ z`. -/
def Matrix.IsPrefixSum (M : Matrix) : Prop :=
  ∃ sums, M.sums = some sums ∧
    ∀ x y z : Int, 0 ≤ x → x < M.R → 0 ≤ y → y < M.R → 0 ≤ z → z < M.R →
      sums x y z = (M.count_filled ⟨⟨0, 0, 0⟩, ⟨x, y, z⟩⟩ : Nat)

/-- A grid of resolution 2 whose only filled cell is the origin, together with
its inclusive prefix-sum table (every box from the origin holds that cell). -/
def originOnly : Matrix :=
  { R := 2
    m := fun x y z => if x = 0 ∧ y = 0 ∧ z = 0 then 1 else 0
    sums := some fun _ _ _ => 1 }

/-- A grid of resolution 2 whose filled cells are `(0,0,0)` and `(1,0,0)`,
together with its inclusive prefix-sum table. -/
def originPair : Matrix :=
  { R := 2
    m := fun x y z => if (x = 0 ∨ x = 1) ∧ y = 0 ∧ z = 0 then 1 else 0
    sums := some fun x _ _ => if x = 0 then 1 else 2 }

/-- A completely filled grid of resolution 2, together with its inclusive
prefix-sum table. -/
def fullTwo : Matrix :=
  { R := 2
    m := fun _ _ _ => 1
    sums := some fun x y z => (x + 1) * (y + 1) * (z + 1) }

/-! ## Nearness -/

/-- No intermediate value of `Point::is_near` leaves the range of `int`: the
exact manhattan distance of the two points is below `2 ^ 31`. -/
def Point.NoOverflow (a b : Point) : Prop :=
  |a.x - b.x| + |a.y - b.y| + |a.z - b.z| < 2147483648

instance (a b : Point) : Decidable (a.NoOverflow b) := by
  unfold Point.NoOverflow; infer_instance

/-- The 27 offsets with every component in `{-1, 0, 1}`. -/
def unit_offsets : List Point :=
  [-1, 0, 1].flatMap fun (x : Int) =>
    [-1, 0, 1].flatMap fun (y : Int) => [-1, 0, 1].map fun (z : Int) => (⟨x, y, z⟩ : Point)

/-- The unit offsets that `Point::is_near` accepts from the origin. -/
def near_offsets : List Point := unit_offsets.filter fun d => Point.Origin.is_near d

/-! ## Seed masks -/

/-- The `i64` expression `v << k` on 64-bit patterns; C++ defines it for shift
counts `0 ≤ k < 64` only. -/
def shl64 (v : Nat) (k : Int) : Nat := (v * 2 ^ k.toNat) % 2 ^ 64

/-- The `i64` expression `u - v` on 64-bit patterns. -/
def sub64 (u v : Nat) : Nat := (u + (2 ^ 64 - v % 2 ^ 64)) % 2 ^ 64

/-- Source: `make_seeds`. -/
def make_seeds (a b : Int) : Nat :=
  sub64 (shl64 1 (wrap32 (b + 1))) 1 ^^^ sub64 (shl64 1 a) 1

/-- Source: the data members of `struct Bot`, without the command recorder
`mw`. -/
structure Bot where
  pos : Point
  seeds : Nat
  id : Int
  parent : Int := -1
  step : Int := 0
  left : Int := -1
  right : Int := -1

/-- Source: `Bot::Initial`. -/
def Bot.Initial : Bot :=
  let initial_seeds := sub64 (shl64 1 kMaxBots) 2
  { pos := ⟨0, 0, 0⟩, seeds := initial_seeds, id := 0 }

/-! ## Corners of a region -/

/-- Every coordinate of `p` is one of the two extreme values of `r` on its axis. -/
def Region.on_extremes (r : Region) (p : Point) : Prop :=
  (p.x = r.a.x ∨ p.x = r.b.x) ∧ (p.y = r.a.y ∨ p.y = r.b.y) ∧ (p.z = r.a.z ∨ p.z = r.b.z)

instance (r : Region) (p : Point) : Decidable (r.on_extremes p) := by
  unfold Region.on_extremes; infer_instance

/-- The coordinate-wise mirror of `p` in `r`: on each axis the extreme value
other than the one `p` has. -/
def Region.mirror (r : Region) (p : Point) : Point :=
  ⟨if p.x = r.a.x then r.b.x else r.a.x,
   if p.y = r.a.y then r.b.y else r.a.y,
   if p.z = r.a.z then r.b.z else r.a.z⟩

/-! ## Cell access and boundary overrides -/

/-- Source: `Matrix::get`. -/
def Matrix.get (M : Matrix) (p : Point) : Bool :=
  if M.XL ≠ -1 ∧ (p.x < M.XL ∨ p.x > M.XR) then true
  else if M.ZL ≠ -1 ∧ (p.z < M.ZL ∨ p.z > M.ZR) then true
  else decide (M.m p.x p.y p.z ≠ 0)

/-- Source: `Matrix::set_x_limits`. -/
def Matrix.set_x_limits (M : Matrix) (x1 x2 : Int) : Matrix :=
  { M with XL := x1, XR := x2 }

/-- Source: `Matrix::set_z_limits`. -/
def Matrix.set_z_limits (M : Matrix) (z1 z2 : Int) : Matrix :=
  { M with ZL := z1, ZR := z2 }

/-- The table indices that `Matrix::get_sum` reads for the region `r`, in the
order of the source: the high corner always, a corner with a lowered coordinate
only inside the guards that lower it. -/
def Matrix.get_sum_reads (r : Region) : List Point :=
  let X := r.b.x
  let Y := r.b.y
  let Z := r.b.z
  let x := r.a.x - 1
  let y := r.a.y - 1
  let z := r.a.z - 1
  [(⟨X, Y, Z⟩ : Point)] ++
  (if x > 0 then
    [(⟨x, Y, Z⟩ : Point)] ++
    (if y > 0 then [(⟨x, y, Z⟩ : Point)] ++ (if z > 0 then [(⟨x, y, z⟩ : Point)] else []) else []) ++
    (if z > 0 then [(⟨x, Y, z⟩ : Point)] else [])
   else []) ++
  (if y > 0 then
    [(⟨X, y, Z⟩ : Point)] ++ (if z > 0 then [(⟨X, y, z⟩ : Point)] else [])
   else []) ++
  (if z > 0 then [(⟨X, Y, z⟩ : Point)] else [])

/-! ## Bit scans of a seed mask -/

/-- Source: `high_bit`; the loop runs `i` from `kMaxBots - 1` down to 0 and
falls through to `Assert(false)`. -/
def high_bit (seeds : Nat) : Option Int :=
  ((List.range kMaxBots.toNat).reverse.find? fun (i : Nat) =>
    decide (seeds &&& shl64 1 i ≠ 0)).map fun (i : Nat) => (i : Int)

/-- Source: `low_bit`; the loop runs `i` from 0 up to `kMaxBots - 1` and falls
through to `Assert(false)`. -/
def low_bit (seeds : Nat) : Option Int :=
  ((List.range kMaxBots.toNat).find? fun (i : Nat) =>
    decide (seeds &&& shl64 1 i ≠ 0)).map fun (i : Nat) => (i : Int)

/-! ## Sub-vectors of a direction -/

/-- The 32-bit pattern of an `int`. -/
def bits32 (v : Int) : Nat := (v % 4294967296).toNat

/-- The `int` expression `a & b`, on two's complement patterns. -/
def and32 (a b : Int) : Int := wrap32 (bits32 a &&& bits32 b : Nat)

/-- Source: `check_for_all_subdeltas`.  In the last three tests the source
applies the bitwise `&` to the second component and the negated answer of `f`,
and `&&` to the first component and that result. -/
def check_for_all_subdeltas (p : Point) (f : Point → Bool) : Bool :=
  if p.x ≠ 0 ∧ (!f ⟨p.x, 0, 0⟩) = true then false
  else if p.y ≠ 0 ∧ (!f ⟨0, p.y, 0⟩) = true then false
  else if p.z ≠ 0 ∧ (!f ⟨0, 0, p.z⟩) = true then false
  else if p.x ≠ 0 ∧ and32 p.y (b2i (!f ⟨p.x, p.y, 0⟩)) ≠ 0 then false
  else if p.x ≠ 0 ∧ and32 p.z (b2i (!f ⟨p.x, 0, p.z⟩)) ≠ 0 then false
  else if p.y ≠ 0 ∧ and32 p.z (b2i (!f ⟨0, p.y, p.z⟩)) ≠ 0 then false
  else true

/-- What the check is meant to decide: `f` holds on every single-axis
sub-vector of `p` with a non-zero component and on every two-axis sub-vector of
`p` with both components non-zero. -/
def all_subdeltas_hold (p : Point) (f : Point → Bool) : Prop :=
  (p.x ≠ 0 → f ⟨p.x, 0, 0⟩ = true) ∧
  (p.y ≠ 0 → f ⟨0, p.y, 0⟩ = true) ∧
  (p.z ≠ 0 → f ⟨0, 0, p.z⟩ = true) ∧
  (p.x ≠ 0 → p.y ≠ 0 → f ⟨p.x, p.y, 0⟩ = true) ∧
  (p.x ≠ 0 → p.z ≠ 0 → f ⟨p.x, 0, p.z⟩ = true) ∧
  (p.y ≠ 0 → p.z ≠ 0 → f ⟨0, p.y, p.z⟩ = true)

instance (p : Point) (f : Point → Bool) : Decidable (all_subdeltas_hold p f) := by
  unfold all_subdeltas_hold; infer_instance

/-! ## The reachability solver -/

/-- Source: `Point::operator+`.  It is applied to grid cells and unit offsets,
whose sums are exact. -/
def Point.add (p other : Point) : Point := ⟨p.x + other.x, p.y + other.y, p.z + other.z⟩

instance : Add Point := ⟨Point.add⟩

/-- Source: `Matrix::operator[]`, read. -/
def Matrix.cell (M : Matrix) (p : Point) : Int := M.m p.x p.y p.z

/-- Source: `Matrix::operator[]`, the assignment `M[p] = v`. -/
def Matrix.set (M : Matrix) (p : Point) (v : Int) : Matrix :=
  { M with m := fun x y z => if x = p.x ∧ y = p.y ∧ z = p.z then v else M.m x y z }

/-- Modelled from the spec: `Matrix::clear`, declared in the header and defined
outside the sources at hand; it resets the grid to resolution `r` with every
cell empty. -/
def Matrix.clear (M : Matrix) (r : Int) : Matrix :=
  { M with R := r, m := fun _ _ _ => 0 }

/-- The calls the solver makes on its trace writer and on the movement
planner, in order. -/
inductive Action where
  | reach_cell (pos dst : Point) (exact : Bool)
  | fill (pos dst : Point)
deriving DecidableEq, Repr

/-- The target of a `fill` call. -/
def Action.fill_target : Action → Option Point
  | Action.fill _ dst => some dst
  | Action.reach_cell _ _ _ => none

/-- The targets of the `fill` calls of a trace, in order. -/
def fills (w : List Action) : List Point := w.filterMap Action.fill_target

/-- The end point that the movement planner `reach_cell(from, to, env, w, exact)`
returns; the planner is declared in the header and defined outside the sources
at hand, so it is a parameter of the solver. -/
abbrev ReachCell := Point → Point → Matrix → Bool → Point

/-- Source: the data members of `struct StupidSolver2`.  The trace writer `w`
is the sequence of calls made on it. -/
structure StupidSolver2 where
  m : Matrix
  w : List Action
  cur : Matrix
  temp_bfs : Matrix
  R : Int
  b : Bot

/-- Modelled from the spec: the call `reach_cell(b, to, &cur, w, exact)`; the
planner emits its moves on the writer and leaves the bot at the end point. -/
def StupidSolver2.reach_cell (S : StupidSolver2) (rc : ReachCell) (dst : Point)
    (exact : Bool) : StupidSolver2 :=
  { S with
    b := { S.b with pos := rc S.b.pos dst S.cur exact }
    w := S.w ++ [Action.reach_cell S.b.pos dst exact] }

/-- Modelled from the spec: what `Deltas26()` returns, a list of every
combination of `{-1, 0, 1}` per axis except the zero vector; the function is
declared in the header and defined outside the sources at hand, and the order
of the list is not fixed here. -/
def IsDeltas26 (deltas : List Point) : Prop :=
  ∀ d : Point, d ∈ deltas ↔
    ((d.x = -1 ∨ d.x = 0 ∨ d.x = 1) ∧ (d.y = -1 ∨ d.y = 0 ∨ d.y = 1) ∧
      (d.z = -1 ∨ d.z = 0 ∨ d.z = 1) ∧ d ≠ ⟨0, 0, 0⟩)

/-- One list of the 26 directions, in lexicographic order. -/
def deltas26 : List Point := unit_offsets.filter fun d => decide (d ≠ ⟨0, 0, 0⟩)

/-- The loop state of `StupidSolver2::BFS`: the local queue `q` and the
solver. -/
abbrev BFSState := List Point × StupidSolver2

/-- Source: the lambda `push` of `StupidSolver2::BFS`. -/
def StupidSolver2.push (st : BFSState) (p : Point) : BFSState :=
  if st.2.temp_bfs.cell p ≠ 0 then st
  else (st.1 ++ [p], { st.2 with temp_bfs := st.2.temp_bfs.set p 1 })

/-- Source: the test of `StupidSolver2::BFS` that lets the cell `t + d` be
pushed while `t` is processed. -/
def StupidSolver2.passes (S : StupidSolver2) (t d : Point) : Bool :=
  S.cur.is_valid (t + d) && decide (S.m.cell (t + d) ≠ 0) &&
    check_for_all_subdeltas d (fun b => decide (S.m.cell (t + b) ≠ 0))

/-- Source: the body of the loop over `Deltas26()` in `StupidSolver2::BFS`. -/
def StupidSolver2.visit_delta (t : Point) (st : BFSState) (d : Point) : BFSState :=
  let a := t + d
  if (!st.2.cur.is_valid a) = true then st
  else if st.2.m.cell a ≠ 0 then
    if check_for_all_subdeltas d (fun b => decide (st.2.m.cell (t + b) ≠ 0)) = true then
      StupidSolver2.push st a
    else st
  else st

/-- Source: the body of the `while` loop of `StupidSolver2::BFS` for the
dequeued cell `t` and the rest `q` of the queue. -/
def StupidSolver2.visit (rc : ReachCell) (deltas : List Point) (t : Point) (q : List Point)
    (S : StupidSolver2) : BFSState :=
  let S1 := S.reach_cell rc t false
  let S2 := { S1 with w := S1.w ++ [Action.fill S1.b.pos t] }
  let S3 := { S2 with cur := S2.cur.set t 1 }
  deltas.foldl (StupidSolver2.visit_delta t) (q, S3)

/-- Source: the `while` loop of `StupidSolver2::BFS`; every iteration uses one
unit of `fuel`, and `none` means that the fuel ran out. -/
def StupidSolver2.BFS_loop (rc : ReachCell) (deltas : List Point) :
    Nat → BFSState → Option StupidSolver2
  | 0, _ => none
  | fuel + 1, (q, S) =>
    match q with
    | [] => some S
    | t :: rest => StupidSolver2.BFS_loop rc deltas fuel (StupidSolver2.visit rc deltas t rest S)

/-- Source: `StupidSolver2::BFS`. -/
def StupidSolver2.BFS (rc : ReachCell) (deltas : List Point) (fuel : Nat) (S : StupidSolver2)
    (p : Point) : Option StupidSolver2 :=
  let S0 := { S with temp_bfs := S.temp_bfs.clear S.R }
  StupidSolver2.BFS_loop rc deltas fuel (StupidSolver2.push ([], S0) p)

/-- The locals `x0`, `z0`, `dist` of `StupidSolver2::solve`. -/
structure StartScan where
  x0 : Int
  z0 : Int
  dist : Int
deriving DecidableEq, Repr

/-- Source: the body of the two scan loops of `StupidSolver2::solve` at the
ground cell `(x, 0, z)`. -/
def StupidSolver2.scan_step (m : Matrix) (st : StartScan) (x z : Nat) : StartScan :=
  if m.m x 0 z ≠ 0 then
    let d : Int := (x : Int) + (z : Int)
    if d < st.dist then { x0 := x, z0 := z, dist := d } else st
  else st

/-- Source: the two scan loops of `StupidSolver2::solve`, from the initial
`x0 = -1`, `z0 = 1`, `dist = 1000`. -/
def StupidSolver2.scan (S : StupidSolver2) : StartScan :=
  (List.range S.R.toNat).foldl (fun (st : StartScan) (x : Nat) =>
    (List.range S.R.toNat).foldl (fun (st : StartScan) (z : Nat) =>
      StupidSolver2.scan_step S.m st x z) st) { x0 := -1, z0 := 1, dist := 1000 }

/-- Source: the start of `StupidSolver2::solve` up to `Assert(x0 != -1)`; the
result is the cell `{ x0, 0, z0 }` handed to `BFS`, and `none` is the failed
assertion. -/
def StupidSolver2.start (S : StupidSolver2) : Option Point :=
  let st := S.scan
  if st.x0 ≠ -1 then some ⟨st.x0, 0, st.z0⟩ else none

/-- The invariant of the scan loops of `StupidSolver2::solve` on the target `m`
with `n` columns, when the rows before `k` and the columns before `j` of row
`k` have been seen: either nothing filled was seen and the locals are
untouched, or the locals hold a filled ground cell that was seen, its
coordinate sum, and no seen filled cell has a smaller sum or the same sum at an
earlier scan position. -/
def ScanInv (m : Matrix) (n k j : Nat) (st : StartScan) : Prop :=
  (st = { x0 := -1, z0 := 1, dist := 1000 } ∧
    ∀ x z : Nat, z < n → (x < k ∨ (x = k ∧ z < j)) → m.m x 0 z = 0) ∨
  (∃ x0 z0 : Nat, st = { x0 := x0, z0 := z0, dist := (x0 : Int) + (z0 : Int) } ∧
    z0 < n ∧ (x0 < k ∨ (x0 = k ∧ z0 < j)) ∧ m.m x0 0 z0 ≠ 0 ∧
    ∀ x z : Nat, z < n → (x < k ∨ (x = k ∧ z < j)) → m.m x 0 z ≠ 0 →
      (x0 + z0 < x + z ∨ (x0 + z0 = x + z ∧ (x0 < x ∨ (x0 = x ∧ z0 ≤ z)))))

/-- How a run of `StupidSolver2::solve` ends. -/
inductive Outcome where
  | done (S : StupidSolver2)
  | assert_failed (S : StupidSolver2)
  | out_of_fuel

/-- Whether a run of `solve` returned. -/
def Outcome.is_done : Outcome → Bool
  | Outcome.done _ => true
  | Outcome.assert_failed _ => false
  | Outcome.out_of_fuel => false

/-- Source: the statements `b = Bot::Initial(); cur.clear(R);` of
`StupidSolver2::solve`. -/
def StupidSolver2.prepared (S : StupidSolver2) : StupidSolver2 :=
  { S with b := Bot.Initial, cur := S.cur.clear S.R }

/-- Source: `StupidSolver2::solve`.  A failed `Assert(x0 != -1)` leaves the
solver as it was. -/
def StupidSolver2.solve (rc : ReachCell) (deltas : List Point) (fuel : Nat)
    (S : StupidSolver2) : Outcome :=
  match S.start with
  | none => Outcome.assert_failed S
  | some p0 =>
    match StupidSolver2.BFS rc deltas fuel S.prepared p0 with
    | none => Outcome.out_of_fuel
    | some S2 => Outcome.done (S2.reach_cell rc ⟨0, 0, 0⟩ true)

/-- Source: `StupidSolver2::operator()`. -/
def StupidSolver2.call (rc : ReachCell) (deltas : List Point) (fuel : Nat) (S : StupidSolver2)
    (m : Matrix) (w : List Action) : Outcome :=
  StupidSolver2.solve rc deltas fuel { S with m := m, w := w, R := m.R }

/-- The edge relation of the search: `a` is `t` moved by one of the 26
directions `d`, lies in the grid of resolution `R`, is filled in the target
`m`, and every sub-vector cell of the step is filled in the target. -/
def bfs_edge (m : Matrix) (R : Int) (t a : Point) : Prop :=
  ∃ d : Point, ((d.x = -1 ∨ d.x = 0 ∨ d.x = 1) ∧ (d.y = -1 ∨ d.y = 0 ∨ d.y = 1) ∧
      (d.z = -1 ∨ d.z = 0 ∨ d.z = 1) ∧ d ≠ ⟨0, 0, 0⟩) ∧
    a = t + d ∧
    (0 ≤ a.x ∧ a.x < R ∧ 0 ≤ a.y ∧ a.y < R ∧ 0 ≤ a.z ∧ a.z < R) ∧
    m.cell a ≠ 0 ∧
    all_subdeltas_hold d (fun b => decide (m.cell (t + b) ≠ 0))

/-- The cells reachable from `p0` through the edge relation. -/
def bfs_reachable (m : Matrix) (R : Int) (p0 p : Point) : Prop :=
  Relation.ReflTransGen (bfs_edge m R) p0 p

/-- The three tests of `StupidSolver2::BFS` for pushing `t + d`, as a function
of the target `m` and the resolution `R` of the grid `cur`. -/
def edge_test (m : Matrix) (R : Int) (t d : Point) : Bool :=
  decide (0 ≤ (t + d).x ∧ (t + d).x < R ∧ 0 ≤ (t + d).y ∧ (t + d).y < R ∧
    0 ≤ (t + d).z ∧ (t + d).z < R) &&
  decide (m.cell (t + d) ≠ 0) &&
  check_for_all_subdeltas d (fun b => decide (m.cell (t + b) ≠ 0))

/-- The step of the search as the code takes it: some direction of the list
passes the tests from `t` and leads to `a`. -/
def code_edge (m : Matrix) (R : Int) (deltas : List Point) (t a : Point) : Prop :=
  ∃ d ∈ deltas, a = t + d ∧ edge_test m R t d = true

/-- The invariant of the `while` loop of `StupidSolver2::BFS`, for the target
`m`, resolution `R`, direction list `deltas`, trace `w0` at entry and start cell
`p0`: `D` lists the cells dequeued so far and `st` is the loop state. -/
structure BFSInv (m : Matrix) (R : Int) (deltas : List Point) (w0 : List Action) (p0 : Point)
    (D : List Point) (st : BFSState) : Prop where
  target : st.2.m = m
  res : st.2.R = R
  cur_res : st.2.cur.R = R
  trace : ∃ new, st.2.w = w0 ++ new ∧ fills new = D
  marks : ∀ p, st.2.temp_bfs.cell p ≠ 0 ↔ p ∈ D ++ st.1
  nodup : (D ++ st.1).Nodup
  valid : ∀ p ∈ D ++ st.1, 0 ≤ p.x ∧ p.x < R ∧ 0 ≤ p.y ∧ p.y < R ∧ 0 ≤ p.z ∧ p.z < R
  parent : ∀ p ∈ D ++ st.1, p = p0 ∨ ∃ t ∈ D, code_edge m R deltas t p
  reach : ∀ p ∈ D ++ st.1, Relation.ReflTransGen (code_edge m R deltas) p0 p
  closed : ∀ t ∈ D, ∀ a, code_edge m R deltas t a → a ∈ D ++ st.1
  start : p0 ∈ D ++ st.1

/-- A solver object on which `operator()` has stored the target `m`, its
resolution and an empty trace writer. -/
def solverOn (m : Matrix) : StupidSolver2 :=
  { m := m
    w := []
    cur := { R := 0, m := fun _ _ _ => 0 }
    temp_bfs := { R := 0, m := fun _ _ _ => 0 }
    R := m.R
    b := Bot.Initial }

/-- A grid of resolution 2 whose filled cells are `(0,0,0)` and `(1,0,1)`: the
two cells touch along a diagonal of the ground layer only. -/
def cornerGrid : Matrix :=
  { R := 2
    m := fun x y z => if (x = 0 ∧ y = 0 ∧ z = 0) ∨ (x = 1 ∧ y = 0 ∧ z = 1) then 1 else 0 }

/-- A grid of resolution 2 with no filled cell. -/
def emptyTwo : Matrix :=
  { R := 2
    m := fun _ _ _ => 0 }

/-! ## Regions: canonical form, dimension, opposite corner -/

/-- C4: for any two points `pa`, `pb` the region `Region(pa, pb)` is canonical
(its `a` is at most its `b` on every axis), contains both `pa` and `pb`, and is
the same region as `Region(pb, pa)`. -/
theorem region_ctor_canonical (pa pb : Point) :
    (Region.ctor pa pb).a.x ≤ (Region.ctor pa pb).b.x ∧
    (Region.ctor pa pb).a.y ≤ (Region.ctor pa pb).b.y ∧
    (Region.ctor pa pb).a.z ≤ (Region.ctor pa pb).b.z ∧
    (Region.ctor pa pb).contains pa = true ∧
    (Region.ctor pa pb).contains pb = true ∧
    Region.ctor pa pb = Region.ctor pb pa := by
  refine ⟨?_, ?_, ?_, ?_, ?_, ?_⟩
  · simp only [Region.ctor]; omega
  · simp only [Region.ctor]; omega
  · simp only [Region.ctor]; omega
  · simp only [Region.ctor, Region.contains, Bool.and_eq_true, decide_eq_true_eq]; omega
  · simp only [Region.ctor, Region.contains, Bool.and_eq_true, decide_eq_true_eq]; omega
  · simp only [Region.ctor, min_comm, max_comm]

/-- C5: `Region(pa, pb).get_dim()` is `pa.n_diff(pb)`, the number of axes on
which `pa` and `pb` differ, a value from 0 to 3, and `get_bots()` is
`2 ^ get_dim()`: 1 for a point, 2 for a line, 4 for a plane, 8 for a box. -/
theorem region_dim_bots (pa pb : Point) :
    (Region.ctor pa pb).get_dim = pa.n_diff pb ∧
    pa.n_diff pb = ([decide (pa.x ≠ pb.x), decide (pa.y ≠ pb.y), decide (pa.z ≠ pb.z)].count true : Nat) ∧
    0 ≤ pa.n_diff pb ∧ pa.n_diff pb ≤ 3 ∧
    (Region.ctor pa pb).get_bots = 2 ^ (Region.ctor pa pb).get_dim.toNat ∧
    (Region.ctor pa pb).get_bots =
      (if (Region.ctor pa pb).get_dim = 0 then 1
       else if (Region.ctor pa pb).get_dim = 1 then 2
       else if (Region.ctor pa pb).get_dim = 2 then 4 else 8) := by
  have hd : (Region.ctor pa pb).get_dim = pa.n_diff pb := by
    simp only [Region.get_dim, Region.ctor, Point.n_diff, b2i, bne_iff_ne, ne_eq, ite_not]
    have hx : (min pa.x pb.x = max pa.x pb.x) ↔ pa.x = pb.x := by omega
    have hy : (min pa.y pb.y = max pa.y pb.y) ↔ pa.y = pb.y := by omega
    have hz : (min pa.z pb.z = max pa.z pb.z) ↔ pa.z = pb.z := by omega
    simp only [hx, hy, hz]
  rw [hd]
  simp only [Region.get_bots, hd, shl32, wrap32, Point.n_diff, b2i, bne_iff_ne, ne_eq]
  by_cases hx : pa.x = pb.x <;> by_cases hy : pa.y = pb.y <;> by_cases hz : pa.z = pb.z <;>
    simp [hx, hy, hz]

theorem opposite_f_eq_some (a b c : Int) (h : c = a ∨ c = b) :
    Region.opposite_f a b c = some (if c = a then b else a) := by
  unfold Region.opposite_f
  by_cases h1 : c = a
  · simp [h1]
  · have h2 : c = b := by tauto
    rw [if_neg h1, if_pos h2, if_neg h1]

theorem opposite_f_eq_none (a b c : Int) :
    Region.opposite_f a b c = none ↔ ¬ (c = a ∨ c = b) := by
  unfold Region.opposite_f
  by_cases h1 : c = a
  · simp [h1]
  · by_cases h2 : c = b
    · rw [if_neg h1, if_pos h2]
      simp [h2]
    · rw [if_neg h1, if_neg h2]
      simp [h1, h2]

theorem opposite_of_on_extremes (r : Region) (p : Point) (h : r.on_extremes p) :
    r.opposite p = some (r.mirror p) := by
  obtain ⟨hx, hy, hz⟩ := h
  simp only [Region.opposite, opposite_f_eq_some _ _ _ hx, opposite_f_eq_some _ _ _ hy,
    opposite_f_eq_some _ _ _ hz, Region.mirror]

theorem mirror_on_extremes (r : Region) (p : Point) : r.on_extremes (r.mirror p) := by
  simp only [Region.on_extremes, Region.mirror]
  refine ⟨?_, ?_, ?_⟩ <;> split <;> simp

theorem mirror_mirror (r : Region) (p : Point) (h : r.on_extremes p) :
    r.mirror (r.mirror p) = p := by
  obtain ⟨hx, hy, hz⟩ := h
  cases p with
  | mk x y z =>
    simp only [Region.mirror, Point.mk.injEq] at *
    refine ⟨?_, ?_, ?_⟩
    · split_ifs <;> omega
    · split_ifs <;> omega
    · split_ifs <;> omega

theorem opposite_eq_none_iff (r : Region) (p : Point) :
    r.opposite p = none ↔ ¬ r.on_extremes p := by
  constructor
  · intro h hp
    rw [opposite_of_on_extremes r p hp] at h
    exact Option.noConfusion h
  · intro hp
    simp only [Region.on_extremes, not_and_or] at hp
    simp only [Region.opposite]
    rcases hp with hp | hp | hp
    · rw [(opposite_f_eq_none _ _ _).2 hp]
    · rw [(opposite_f_eq_none _ _ _).2 hp]
      split <;> simp_all
    · rw [(opposite_f_eq_none _ _ _).2 hp]
      split <;> simp_all

/-- C6: `Region(pa, pb).opposite(pa)` is `pb` and `Region(pa, pb).opposite(pb)`
is `pa`; for a point `p` whose coordinates are each one of the two extreme
values of a region, `opposite(p)` is the coordinate-wise mirror and
`opposite(opposite(p))` is `p` again; the assertion fails exactly when some
coordinate of `p` is neither extreme. -/
theorem region_opposite (pa pb : Point) (r : Region) (p : Point) :
    (Region.ctor pa pb).opposite pa = some pb ∧
    (Region.ctor pa pb).opposite pb = some pa ∧
    (r.on_extremes p →
      r.opposite p = some (r.mirror p) ∧ (r.opposite p).bind r.opposite = some p) ∧
    (r.opposite p = none ↔ ¬ r.on_extremes p) := by
  refine ⟨?_, ?_, ?_, opposite_eq_none_iff r p⟩
  · have h : (Region.ctor pa pb).on_extremes pa := by
      simp only [Region.on_extremes, Region.ctor]; omega
    rw [opposite_of_on_extremes _ _ h]
    cases pa; cases pb
    simp only [Region.mirror, Region.ctor, Option.some.injEq, Point.mk.injEq]
    refine ⟨?_, ?_, ?_⟩ <;> split_ifs <;> omega
  · have h : (Region.ctor pa pb).on_extremes pb := by
      simp only [Region.on_extremes, Region.ctor]; omega
    rw [opposite_of_on_extremes _ _ h]
    cases pa; cases pb
    simp only [Region.mirror, Region.ctor, Option.some.injEq, Point.mk.injEq]
    refine ⟨?_, ?_, ?_⟩ <;> split_ifs <;> omega
  · intro h
    refine ⟨opposite_of_on_extremes r p h, ?_⟩
    rw [opposite_of_on_extremes r p h, Option.some_bind,
      opposite_of_on_extremes r _ (mirror_on_extremes r p), mirror_mirror r p h]

/-- C6 at the region spanned by `(0,5,2)` and `(3,1,2)`: its corner `(0,1,2)`
is mirrored to `(3,5,2)` and back. -/
theorem region_opposite_witness :
    (Region.ctor ⟨0, 5, 2⟩ ⟨3, 1, 2⟩).on_extremes ⟨0, 1, 2⟩ ∧
    (Region.ctor ⟨0, 5, 2⟩ ⟨3, 1, 2⟩).opposite ⟨0, 1, 2⟩ = some ⟨3, 5, 2⟩ ∧
    ((Region.ctor ⟨0, 5, 2⟩ ⟨3, 1, 2⟩).opposite ⟨0, 1, 2⟩).bind
      (Region.ctor ⟨0, 5, 2⟩ ⟨3, 1, 2⟩).opposite = some ⟨0, 1, 2⟩ :=
  ⟨by decide,
   ((region_opposite ⟨0, 5, 2⟩ ⟨3, 1, 2⟩ (Region.ctor ⟨0, 5, 2⟩ ⟨3, 1, 2⟩) ⟨0, 1, 2⟩).2.2.1
      (by decide)).1.trans (by decide),
   ((region_opposite ⟨0, 5, 2⟩ ⟨3, 1, 2⟩ (Region.ctor ⟨0, 5, 2⟩ ⟨3, 1, 2⟩) ⟨0, 1, 2⟩).2.2.1
      (by decide)).2⟩

/-! ## Nearness of points -/

theorem wrap32_of_range (v : Int) (h1 : -2147483648 ≤ v) (h2 : v < 2147483648) :
    wrap32 v = v := by
  unfold wrap32; omega

theorem Abs_wrap32 (v : Int) (h : |v| < 2147483648) : Abs (wrap32 v) = |v| := by
  unfold Abs wrap32
  rcases abs_cases v with ⟨h1, h2⟩ | ⟨h1, h2⟩ <;> split_ifs <;> omega

theorem is_near_iff (a b : Point) (h : a.NoOverflow b) :
    a.is_near b = true ↔
      |a.x - b.x| ≤ 1 ∧ |a.y - b.y| ≤ 1 ∧ |a.z - b.z| ≤ 1 ∧
      1 ≤ |a.x - b.x| + |a.y - b.y| + |a.z - b.z| ∧
      |a.x - b.x| + |a.y - b.y| + |a.z - b.z| ≤ 2 := by
  unfold Point.NoOverflow at h
  have hx := abs_nonneg (a.x - b.x)
  have hy := abs_nonneg (a.y - b.y)
  have hz := abs_nonneg (a.z - b.z)
  have h1 : Abs (wrap32 (a.x - b.x)) = |a.x - b.x| := Abs_wrap32 _ (by omega)
  have h2 : Abs (wrap32 (a.y - b.y)) = |a.y - b.y| := Abs_wrap32 _ (by omega)
  have h3 : Abs (wrap32 (a.z - b.z)) = |a.z - b.z| := Abs_wrap32 _ (by omega)
  have h4 : wrap32 (wrap32 (|a.x - b.x| + |a.y - b.y|) + |a.z - b.z|) =
      |a.x - b.x| + |a.y - b.y| + |a.z - b.z| := by
    rw [wrap32_of_range (|a.x - b.x| + |a.y - b.y|) (by omega) (by omega)]
    exact wrap32_of_range _ (by omega) (by omega)
  simp only [Point.is_near, h1, h2, h3, h4, Bool.and_eq_true, decide_eq_true_eq]
  omega

theorem NoOverflow_symm (a b : Point) (h : a.NoOverflow b) : b.NoOverflow a := by
  unfold Point.NoOverflow at *
  rw [abs_sub_comm b.x, abs_sub_comm b.y, abs_sub_comm b.z]
  exact h

theorem is_near_self (a : Point) : a.is_near a = false := by
  simp only [Point.is_near, sub_self]
  decide

theorem is_near_origin_iff (d : Point) (h : Point.Origin.NoOverflow d) :
    Point.Origin.is_near d = true ↔ d ∈ near_offsets := by
  constructor
  · intro hn
    have hn2 := hn
    rw [is_near_iff _ _ h] at hn2
    obtain ⟨h1, h2, h3, -, -⟩ := hn2
    simp only [Point.Origin, zero_sub, abs_neg] at h1 h2 h3
    rw [abs_le] at h1 h2 h3
    have hmem : d ∈ unit_offsets := by
      cases d with
      | mk x y z =>
        simp only at h1 h2 h3
        have ex : x = -1 ∨ x = 0 ∨ x = 1 := by omega
        have ey : y = -1 ∨ y = 0 ∨ y = 1 := by omega
        have ez : z = -1 ∨ z = 0 ∨ z = 1 := by omega
        rcases ex with rfl | rfl | rfl <;> rcases ey with rfl | rfl | rfl <;>
          rcases ez with rfl | rfl | rfl <;> decide
    exact List.mem_filter.2 ⟨hmem, by simpa using hn⟩
  · intro hm
    have := (List.mem_filter.1 hm).2
    simpa using this

/-- C7: when no `int` overflows, `a.is_near(b)` holds exactly if the two points
differ by at most 1 on each axis and by 1 or 2 in total; `is_near` is
symmetric, no point is near itself, and exactly 18 offsets are near the
origin. -/
theorem is_near_spec (a b : Point) (h : a.NoOverflow b) :
    (a.is_near b = true ↔
      |a.x - b.x| ≤ 1 ∧ |a.y - b.y| ≤ 1 ∧ |a.z - b.z| ≤ 1 ∧
      1 ≤ |a.x - b.x| + |a.y - b.y| + |a.z - b.z| ∧
      |a.x - b.x| + |a.y - b.y| + |a.z - b.z| ≤ 2) ∧
    b.is_near a = a.is_near b ∧
    a.is_near a = false ∧
    near_offsets.Nodup ∧ near_offsets.length = 18 ∧
    ∀ d : Point, Point.Origin.NoOverflow d →
      (Point.Origin.is_near d = true ↔ d ∈ near_offsets) := by
  refine ⟨is_near_iff a b h, ?_, is_near_self a, by decide, by decide, is_near_origin_iff⟩
  rw [Bool.eq_iff_iff, is_near_iff b a (NoOverflow_symm a b h), is_near_iff a b h,
    abs_sub_comm b.x, abs_sub_comm b.y, abs_sub_comm b.z]

/-- C7 at the points `(3,4,5)` and `(4,4,6)`, which are near each other in both
orders. -/
theorem is_near_spec_witness :
    Point.NoOverflow ⟨3, 4, 5⟩ ⟨4, 4, 6⟩ ∧
    Point.is_near ⟨4, 4, 6⟩ ⟨3, 4, 5⟩ = Point.is_near ⟨3, 4, 5⟩ ⟨4, 4, 6⟩ ∧
    Point.is_near ⟨3, 4, 5⟩ ⟨4, 4, 6⟩ = true :=
  ⟨by decide, (is_near_spec ⟨3, 4, 5⟩ ⟨4, 4, 6⟩ (by decide)).2.1, by decide⟩

/-! ## Seed masks and the root bot -/

theorem shl64_one (n : Nat) (h : n < 64) : shl64 1 (n : Int) = 2 ^ n := by
  unfold shl64
  rw [Int.toNat_ofNat, one_mul]
  exact Nat.mod_eq_of_lt (Nat.pow_lt_pow_right (by decide) h)

theorem sub64_one_two_pow (n : Nat) (h : n < 64) : sub64 (2 ^ n) 1 = 2 ^ n - 1 := by
  unfold sub64
  have h1 : 2 ^ n < 2 ^ 64 := Nat.pow_lt_pow_right (by decide) h
  have h2 : 0 < 2 ^ n := Nat.two_pow_pos n
  omega

theorem make_seeds_eq (a b : Nat) (ha : a < 64) (hb : b < 63) :
    make_seeds a b = (2 ^ (b + 1) - 1) ^^^ (2 ^ a - 1) := by
  unfold make_seeds
  have hw : wrap32 ((b : Int) + 1) = ((b + 1 : Nat) : Int) := by
    unfold wrap32; omega
  rw [hw, shl64_one a ha, shl64_one (b + 1) (by omega), sub64_one_two_pow a ha,
    sub64_one_two_pow (b + 1) (by omega)]

theorem make_seeds_testBit (a b : Nat) (hab : a ≤ b) (hb : b < 63) (i : Nat) :
    (make_seeds a b).testBit i = decide (a ≤ i ∧ i ≤ b) := by
  rw [make_seeds_eq a b (by omega) hb, Nat.testBit_xor, Nat.testBit_two_pow_sub_one,
    Nat.testBit_two_pow_sub_one]
  by_cases h1 : i < b + 1 <;> by_cases h2 : i < a <;> simp [h1, h2] <;> omega

/-- C8: for `0 ≤ a ≤ b ≤ 39`, `make_seeds(a, b)` is a 64-bit mask whose set
bits are exactly the positions `i` with `a ≤ i ≤ b`; `make_seeds(0,0) = 1`,
`make_seeds(2,5) = 60`, `make_seeds(0,39) = 2^40 - 1`. -/
theorem make_seeds_bits (a b : Int) (ha : 0 ≤ a) (hab : a ≤ b) (hb : b ≤ 39) :
    make_seeds a b < 2 ^ 64 ∧
    (∀ i : Nat, (make_seeds a b).testBit i = true ↔ a ≤ i ∧ (i : Int) ≤ b) ∧
    make_seeds 0 0 = 1 ∧ make_seeds 2 5 = 60 ∧ make_seeds 0 39 = 2 ^ 40 - 1 := by
  obtain ⟨a, rfl⟩ := Int.eq_ofNat_of_zero_le ha
  obtain ⟨b, rfl⟩ := Int.eq_ofNat_of_zero_le (le_trans ha hab)
  have hab2 : a ≤ b := by omega
  have hb2 : b < 63 := by omega
  refine ⟨?_, ?_, by decide, by decide, by decide⟩
  · rw [make_seeds_eq a b (by omega) hb2]
    have h1 : 2 ^ (b + 1) - 1 < 2 ^ 64 :=
      lt_of_le_of_lt (Nat.sub_le _ _) (Nat.pow_lt_pow_right (by decide) (by omega))
    have h2 : 2 ^ a - 1 < 2 ^ 64 :=
      lt_of_le_of_lt (Nat.sub_le _ _) (Nat.pow_lt_pow_right (by decide) (by omega))
    exact Nat.xor_lt_two_pow h1 h2
  · intro i
    rw [make_seeds_testBit a b hab2 hb2 i, decide_eq_true_eq]
    omega

/-- C8 at the range `[2, 5]`: the mask is below `2 ^ 64` and bit 3 is set. -/
theorem make_seeds_bits_witness :
    make_seeds 2 5 < 2 ^ 64 ∧ (make_seeds 2 5).testBit 3 = true :=
  ⟨(make_seeds_bits 2 5 (by decide) (by decide) (by decide)).1,
   ((make_seeds_bits 2 5 (by decide) (by decide) (by decide)).2.1 3).2 (by decide)⟩

/-- C9: for `0 ≤ a ≤ m < b ≤ 39` the low part `make_seeds(a, m)` and the high
part `make_seeds(m + 1, b)` have no common bit, and their union is
`make_seeds(a, b)`: splitting a contiguous seed set and re-uniting the two
parts restores it. -/
theorem make_seeds_split (a m b : Int) (ha : 0 ≤ a) (ham : a ≤ m) (hmb : m < b)
    (hb : b ≤ 39) :
    make_seeds a m &&& make_seeds (m + 1) b = 0 ∧
    make_seeds a m ||| make_seeds (m + 1) b = make_seeds a b := by
  obtain ⟨a, rfl⟩ := Int.eq_ofNat_of_zero_le ha
  obtain ⟨m, rfl⟩ := Int.eq_ofNat_of_zero_le (le_trans ha ham)
  obtain ⟨b, rfl⟩ := Int.eq_ofNat_of_zero_le (by omega : (0 : Int) ≤ b)
  have e : ((m : Int) + 1) = ((m + 1 : Nat) : Int) := by omega
  rw [e]
  constructor
  · apply Nat.eq_of_testBit_eq
    intro i
    rw [Nat.testBit_and, make_seeds_testBit a m (by omega) (by omega),
      make_seeds_testBit (m + 1) b (by omega) (by omega), Nat.zero_testBit]
    by_cases h1 : i ≤ m
    · simp only [h1, and_true, Bool.and_eq_false_imp, decide_eq_true_eq, decide_eq_false_iff_not]
      omega
    · simp [h1]
  · apply Nat.eq_of_testBit_eq
    intro i
    rw [Nat.testBit_or, make_seeds_testBit a m (by omega) (by omega),
      make_seeds_testBit (m + 1) b (by omega) (by omega),
      make_seeds_testBit a b (by omega) (by omega)]
    by_cases h1 : i ≤ m <;> by_cases h2 : a ≤ i <;> by_cases h3 : i ≤ b <;>
      simp [h1, h2, h3] <;> omega

/-- C9 at `a = 1`, `m = 7`, `b = 39`: the parts `[1, 7]` and `[8, 39]` are
disjoint and unite to `[1, 39]`. -/
theorem make_seeds_split_witness :
    make_seeds 1 7 &&& make_seeds (7 + 1) 39 = 0 ∧
    make_seeds 1 7 ||| make_seeds (7 + 1) 39 = make_seeds 1 39 :=
  make_seeds_split 1 7 39 (by decide) (by decide) (by decide) (by decide)

/-- C10: the root bot of `Bot::Initial()` is at `(0,0,0)` with id 0 and seeds
`make_seeds(1, kMaxBots - 1) = 2^40 - 2`; its id is not among its seeds, and
its id together with its seeds is exactly the id set `0 .. kMaxBots - 1`, with
`kMaxBots = 40`. -/
theorem bot_initial :
    Bot.Initial.pos = ⟨0, 0, 0⟩ ∧ Bot.Initial.id = 0 ∧
    Bot.Initial.seeds = make_seeds 1 (kMaxBots - 1) ∧
    Bot.Initial.seeds = 2 ^ 40 - 2 ∧
    Bot.Initial.seeds.testBit Bot.Initial.id.toNat = false ∧
    kMaxBots = 40 ∧
    ∀ i : Nat, ((i : Int) = Bot.Initial.id ∨ Bot.Initial.seeds.testBit i = true) ↔
      (i : Int) < kMaxBots := by
  have hs : Bot.Initial.seeds = make_seeds 1 39 := by decide
  refine ⟨rfl, rfl, by decide, by decide, by decide, rfl, ?_⟩
  intro i
  rw [hs]
  have h := make_seeds_testBit 1 39 (by decide) (by decide) i
  simp only [Nat.cast_one, Nat.cast_ofNat] at h
  rw [h, decide_eq_true_eq]
  simp only [Bot.Initial, kMaxBots]
  omega

/-! ## The grid: prefix sums and counts -/

theorem foldl_add_sum {α : Type} (l : List α) (g : Int → α → Int) (k : α → Nat)
    (hg : ∀ res a, g res a = res + k a) (init : Int) :
    l.foldl g init = init + ((l.map k).sum : Nat) := by
  induction l generalizing init with
  | nil => simp
  | cons a t ih =>
    rw [List.foldl_cons, ih, hg, List.map_cons, List.sum_cons]
    push_cast
    ring

theorem countP_flatMap_sum {α β : Type} (l : List α) (f : α → List β) (p : β → Bool) :
    (l.flatMap f).countP p = (l.map fun a => (f a).countP p).sum := by
  induction l with
  | nil => simp
  | cons a t ih => simp [List.flatMap_cons, List.countP_append, ih]

theorem countP_map_sum {α β : Type} (l : List α) (f : α → β) (p : β → Bool) :
    (l.map f).countP p = (l.map fun a => if p (f a) then 1 else 0).sum := by
  induction l with
  | nil => simp
  | cons a t ih =>
    rw [List.map_cons, List.countP_cons, ih, List.map_cons, List.sum_cons]
    omega

/-- The loop of `get_filled_count` counts the cells with a non-zero entry. -/
theorem get_filled_count_eq (M : Matrix) :
    M.get_filled_count = (M.cells.countP fun p => decide (M.m p.x p.y p.z ≠ 0) : Nat) := by
  unfold Matrix.get_filled_count Matrix.cells
  rw [countP_flatMap_sum]
  rw [foldl_add_sum (List.range M.R.toNat) _
    (fun (x : Nat) => ((List.range M.R.toNat).flatMap fun (y : Nat) =>
      (List.range M.R.toNat).map fun (z : Nat) => (⟨x, y, z⟩ : Point)).countP
        fun p => decide (M.m p.x p.y p.z ≠ 0))]
  · simp
  · intro res x
    rw [countP_flatMap_sum]
    rw [foldl_add_sum (List.range M.R.toNat) _
      (fun (y : Nat) => ((List.range M.R.toNat).map fun (z : Nat) => (⟨x, y, z⟩ : Point)).countP
        fun p => decide (M.m p.x p.y p.z ≠ 0))]
    intro res y
    rw [countP_map_sum]
    rw [foldl_add_sum (List.range M.R.toNat) _
      (fun (z : Nat) => if decide (M.m x y z ≠ 0) then 1 else 0)]
    intro res z
    by_cases h : M.m x y z = 0 <;> simp [h]

theorem mem_cells (M : Matrix) (p : Point) :
    p ∈ M.cells ↔ 0 ≤ p.x ∧ p.x < M.R ∧ 0 ≤ p.y ∧ p.y < M.R ∧ 0 ≤ p.z ∧ p.z < M.R := by
  unfold Matrix.cells
  simp only [List.mem_flatMap, List.mem_map, List.mem_range]
  constructor
  · rintro ⟨x, hx, y, hy, z, hz, rfl⟩
    simp only
    omega
  · rintro ⟨h1, h2, h3, h4, h5, h6⟩
    refine ⟨p.x.toNat, by omega, p.y.toNat, by omega, p.z.toNat, by omega, ?_⟩
    cases p
    simp only [Point.mk.injEq] at *
    omega

/-- C2: on a grid of resolution `R ≥ 1` with a correct inclusive prefix-sum
table, `get_sum` of the region spanning the whole grid is
`get_filled_count()`, the number of non-zero cells in `[0, R)^3`. -/
theorem get_sum_whole_grid (M : Matrix) (hR : 1 ≤ M.R) (hs : M.IsPrefixSum) :
    M.get_sum (Region.ctor ⟨0, 0, 0⟩ ⟨M.R - 1, M.R - 1, M.R - 1⟩) =
      some M.get_filled_count ∧
    M.get_filled_count = (M.cells.countP fun p => decide (M.m p.x p.y p.z ≠ 0) : Nat) := by
  refine ⟨?_, get_filled_count_eq M⟩
  obtain ⟨sums, hsome, htab⟩ := hs
  have hmin : min (0 : Int) (M.R - 1) = 0 := by omega
  have hmax : max (0 : Int) (M.R - 1) = M.R - 1 := by omega
  simp only [Matrix.get_sum, hsome, Region.ctor, hmin, hmax]
  rw [if_neg (by omega), if_neg (by omega), if_neg (by omega)]
  rw [htab (M.R - 1) (M.R - 1) (M.R - 1) (by omega) (by omega) (by omega) (by omega)
    (by omega) (by omega), get_filled_count_eq]
  congr 2
  unfold Matrix.count_filled
  apply List.countP_congr
  intro p hp
  rw [mem_cells] at hp
  simp only [Region.contains, Bool.and_eq_true, decide_eq_true_eq]
  constructor
  · intro h; exact h.2
  · intro h; exact ⟨by omega, h⟩

theorem originOnly_table_ok : originOnly.IsPrefixSum := by
  refine ⟨fun _ _ _ => 1, rfl, ?_⟩
  intro x y z hx0 hx hy0 hy hz0 hz
  have hR : originOnly.R = 2 := rfl
  rw [hR] at hx hy hz
  have ex : x = 0 ∨ x = 1 := by omega
  have ey : y = 0 ∨ y = 1 := by omega
  have ez : z = 0 ∨ z = 1 := by omega
  rcases ex with rfl | rfl <;> rcases ey with rfl | rfl <;> rcases ez with rfl | rfl <;> decide

theorem originPair_table_ok : originPair.IsPrefixSum := by
  refine ⟨fun x _ _ => if x = 0 then 1 else 2, rfl, ?_⟩
  intro x y z hx0 hx hy0 hy hz0 hz
  have hR : originPair.R = 2 := rfl
  rw [hR] at hx hy hz
  have ex : x = 0 ∨ x = 1 := by omega
  have ey : y = 0 ∨ y = 1 := by omega
  have ez : z = 0 ∨ z = 1 := by omega
  rcases ex with rfl | rfl <;> rcases ey with rfl | rfl <;> rcases ez with rfl | rfl <;> decide

/-- C2 on the grid of resolution 2 with the two filled cells `(0,0,0)` and
`(1,0,0)`: the whole-grid sum is the filled count, 2. -/
theorem get_sum_whole_grid_witness :
    1 ≤ originPair.R ∧ originPair.IsPrefixSum ∧
    originPair.get_sum
        (Region.ctor ⟨0, 0, 0⟩ ⟨originPair.R - 1, originPair.R - 1, originPair.R - 1⟩) =
      some originPair.get_filled_count ∧
    originPair.get_filled_count = 2 :=
  ⟨by decide, originPair_table_ok,
   (get_sum_whole_grid originPair (by decide) originPair_table_ok).1, by decide⟩

/-! ## Inclusion and exclusion in `get_sum` -/

theorem countP_eq_sum_ind {α : Type} (l : List α) (p : α → Bool) :
    ((l.countP p : Nat) : Int) = (l.map fun a => if p a then (1 : Int) else 0).sum := by
  induction l with
  | nil => simp
  | cons a t ih =>
    rw [List.countP_cons, List.map_cons, List.sum_cons, ← ih]
    push_cast
    split <;> omega

theorem sum_map_incl_excl {α : Type} (l : List α) (f g1 g2 g3 g4 g5 g6 g7 g8 : α → Int)
    (h : ∀ a ∈ l, f a = g1 a - g2 a - g3 a - g4 a + g5 a + g6 a + g7 a - g8 a) :
    (l.map f).sum = (l.map g1).sum - (l.map g2).sum - (l.map g3).sum - (l.map g4).sum
      + (l.map g5).sum + (l.map g6).sum + (l.map g7).sum - (l.map g8).sum := by
  induction l with
  | nil => simp
  | cons a t ih =>
    simp only [List.map_cons, List.sum_cons]
    rw [ih (fun b hb => h b (List.mem_cons_of_mem a hb)), h a (List.mem_cons_self a t)]
    ring

/-- Three-dimensional inclusion and exclusion for the enumerated counts: the
count of a canonical box is the signed sum of the eight counts of boxes from
the origin. -/
theorem count_filled_incl_excl (M : Matrix) (r : Region)
    (hx : r.a.x ≤ r.b.x) (hy : r.a.y ≤ r.b.y) (hz : r.a.z ≤ r.b.z) :
    (M.count_filled r : Int) =
      M.count_filled ⟨⟨0, 0, 0⟩, ⟨r.b.x, r.b.y, r.b.z⟩⟩
      - M.count_filled ⟨⟨0, 0, 0⟩, ⟨r.a.x - 1, r.b.y, r.b.z⟩⟩
      - M.count_filled ⟨⟨0, 0, 0⟩, ⟨r.b.x, r.a.y - 1, r.b.z⟩⟩
      - M.count_filled ⟨⟨0, 0, 0⟩, ⟨r.b.x, r.b.y, r.a.z - 1⟩⟩
      + M.count_filled ⟨⟨0, 0, 0⟩, ⟨r.a.x - 1, r.a.y - 1, r.b.z⟩⟩
      + M.count_filled ⟨⟨0, 0, 0⟩, ⟨r.a.x - 1, r.b.y, r.a.z - 1⟩⟩
      + M.count_filled ⟨⟨0, 0, 0⟩, ⟨r.b.x, r.a.y - 1, r.a.z - 1⟩⟩
      - M.count_filled ⟨⟨0, 0, 0⟩, ⟨r.a.x - 1, r.a.y - 1, r.a.z - 1⟩⟩ := by
  unfold Matrix.count_filled
  simp only [countP_eq_sum_ind]
  apply sum_map_incl_excl
  intro p hp
  rw [mem_cells] at hp
  obtain ⟨px0, -, py0, -, pz0, -⟩ := hp
  by_cases hf : M.m p.x p.y p.z = 0
  · simp [hf]
  · simp only [Region.contains, hf, ne_eq, not_false_eq_true, decide_True, Bool.and_true,
      Bool.and_eq_true, decide_eq_true_eq, px0, py0, pz0, true_and]
    by_cases h1 : p.x ≤ r.b.x <;> by_cases h2 : p.x ≤ r.a.x - 1 <;>
    by_cases h3 : p.y ≤ r.b.y <;> by_cases h4 : p.y ≤ r.a.y - 1 <;>
    by_cases h5 : p.z ≤ r.b.z <;> by_cases h6 : p.z ≤ r.a.z - 1 <;>
    simp [h1, h2, h3, h4, h5, h6] <;> omega

theorem count_filled_empty (M : Matrix) (X Y Z : Int) (h : X < 0 ∨ Y < 0 ∨ Z < 0) :
    M.count_filled ⟨⟨0, 0, 0⟩, ⟨X, Y, Z⟩⟩ = 0 := by
  unfold Matrix.count_filled
  rw [List.countP_eq_zero]
  intro p hp
  rw [mem_cells] at hp
  simp only [Region.contains, Bool.and_eq_true, decide_eq_true_eq, not_and]
  omega

/-- Where `get_sum` is right: on a grid with a correct prefix-sum table, for a
region inside the grid whose low corner has every coordinate equal to 0 or at
least 2, `get_sum` is the number of filled cells of the region. -/
theorem get_sum_eq_count_filled (M : Matrix) (hs : M.IsPrefixSum) (r : Region)
    (hx : r.a.x ≤ r.b.x) (hy : r.a.y ≤ r.b.y) (hz : r.a.z ≤ r.b.z)
    (hX : r.b.x < M.R) (hY : r.b.y < M.R) (hZ : r.b.z < M.R)
    (ax : r.a.x = 0 ∨ 2 ≤ r.a.x) (ay : r.a.y = 0 ∨ 2 ≤ r.a.y)
    (az : r.a.z = 0 ∨ 2 ≤ r.a.z) :
    M.get_sum r = some (M.count_filled r : Int) := by
  obtain ⟨sums, hsome, htab⟩ := hs
  rw [count_filled_incl_excl M r hx hy hz]
  simp only [Matrix.get_sum, hsome, Option.some.injEq]
  rw [htab r.b.x r.b.y r.b.z (by omega) hX (by omega) hY (by omega) hZ]
  have gx : (¬ r.a.x - 1 > 0 ∧ r.a.x - 1 < 0) ∨ (r.a.x - 1 > 0 ∧ r.a.x - 1 < M.R) := by omega
  have gy : (¬ r.a.y - 1 > 0 ∧ r.a.y - 1 < 0) ∨ (r.a.y - 1 > 0 ∧ r.a.y - 1 < M.R) := by omega
  have gz : (¬ r.a.z - 1 > 0 ∧ r.a.z - 1 < 0) ∨ (r.a.z - 1 > 0 ∧ r.a.z - 1 < M.R) := by omega
  rcases gx with ⟨gx, fx⟩ | ⟨gx, fx⟩ <;> rcases gy with ⟨gy, fy⟩ | ⟨gy, fy⟩ <;>
    rcases gz with ⟨gz, fz⟩ | ⟨gz, fz⟩
  all_goals simp only [gx, gy, gz, if_true, if_false]
  all_goals try rw [htab (r.a.x - 1) r.b.y r.b.z (by omega) (by omega) (by omega) (by omega)
    (by omega) (by omega)]
  all_goals try rw [htab r.b.x (r.a.y - 1) r.b.z (by omega) (by omega) (by omega) (by omega)
    (by omega) (by omega)]
  all_goals try rw [htab r.b.x r.b.y (r.a.z - 1) (by omega) (by omega) (by omega) (by omega)
    (by omega) (by omega)]
  all_goals try rw [htab (r.a.x - 1) (r.a.y - 1) r.b.z (by omega) (by omega) (by omega) (by omega)
    (by omega) (by omega)]
  all_goals try rw [htab (r.a.x - 1) r.b.y (r.a.z - 1) (by omega) (by omega) (by omega) (by omega)
    (by omega) (by omega)]
  all_goals try rw [htab r.b.x (r.a.y - 1) (r.a.z - 1) (by omega) (by omega) (by omega) (by omega)
    (by omega) (by omega)]
  all_goals try rw [htab (r.a.x - 1) (r.a.y - 1) (r.a.z - 1) (by omega) (by omega) (by omega) (by omega)
    (by omega) (by omega)]
  all_goals try rw [count_filled_empty M (r.a.x - 1) r.b.y r.b.z (by omega)]
  all_goals try rw [count_filled_empty M r.b.x (r.a.y - 1) r.b.z (by omega)]
  all_goals try rw [count_filled_empty M r.b.x r.b.y (r.a.z - 1) (by omega)]
  all_goals try rw [count_filled_empty M (r.a.x - 1) (r.a.y - 1) r.b.z (by omega)]
  all_goals try rw [count_filled_empty M (r.a.x - 1) r.b.y (r.a.z - 1) (by omega)]
  all_goals try rw [count_filled_empty M r.b.x (r.a.y - 1) (r.a.z - 1) (by omega)]
  all_goals try rw [count_filled_empty M (r.a.x - 1) (r.a.y - 1) (r.a.z - 1) (by omega)]
  all_goals push_cast
  all_goals ring

/-- C1 at the grid of resolution 2 whose only filled cell is `(0,0,0)`, with
its correct prefix-sum table, and the one-cell region at `(1,0,0)`: the region
lies inside the grid and holds no filled cell, yet `get_sum` returns 1. -/
theorem get_sum_miscounts_low_corner_one :
    originOnly.IsPrefixSum ∧
    originOnly.is_valid (Region.ctor ⟨1, 0, 0⟩ ⟨1, 0, 0⟩).a = true ∧
    originOnly.is_valid (Region.ctor ⟨1, 0, 0⟩ ⟨1, 0, 0⟩).b = true ∧
    originOnly.count_filled (Region.ctor ⟨1, 0, 0⟩ ⟨1, 0, 0⟩) = 0 ∧
    originOnly.get_sum (Region.ctor ⟨1, 0, 0⟩ ⟨1, 0, 0⟩) = some 1 :=
  ⟨originOnly_table_ok, by decide, by decide, by decide, by decide⟩

/-- C3 at side 1 and coarse coordinate `(1,0,0)`: on the grid whose only filled
cell is `(0,0,0)` the box holds no filled cell but `check_b` is true, and on
the grid with `(0,0,0)` and `(1,0,0)` filled the box is full but `check_b` is
false. -/
theorem check_b_wrong_at_side_one :
    (originOnly.IsPrefixSum ∧ originOnly.is_valid_s ⟨1, 0, 0⟩ 1 = true ∧
      originOnly.count_filled (get_region ⟨1, 0, 0⟩ 1) = 0 ∧
      originOnly.check_b ⟨1, 0, 0⟩ 1 = some true) ∧
    (originPair.IsPrefixSum ∧ originPair.is_valid_s ⟨1, 0, 0⟩ 1 = true ∧
      originPair.count_filled (get_region ⟨1, 0, 0⟩ 1) = 1 ^ 3 ∧
      originPair.check_b ⟨1, 0, 0⟩ 1 = some false) :=
  ⟨⟨originOnly_table_ok, by decide, by decide, by decide⟩,
   ⟨originPair_table_ok, by decide, by decide, by decide⟩⟩

/-! ## Boundary overrides of `Matrix::get` -/

/-- C11: after `set_x_limits(x1, x2)` with `x1 ≥ 0`, `get(p)` is true for every
`p` with `p.x` outside `[x1, x2]`, whatever the cell holds; after
`set_z_limits(z1, z2)` with `z1 ≥ 0` the same holds for `p.z` outside
`[z1, z2]`, also when both ranges are set; for `p` inside every range that is
set, or when none is set, `get(p)` tells whether the stored cell is non-zero;
the setters change no stored cell. -/
theorem get_with_limits (M : Matrix) (p : Point) (x1 x2 z1 z2 : Int)
    (hx1 : 0 ≤ x1) (hz1 : 0 ≤ z1) :
    ((p.x < x1 ∨ p.x > x2) → (M.set_x_limits x1 x2).get p = true) ∧
    ((p.z < z1 ∨ p.z > z2) → (M.set_z_limits z1 z2).get p = true) ∧
    ((p.x < x1 ∨ p.x > x2 ∨ p.z < z1 ∨ p.z > z2) →
      ((M.set_x_limits x1 x2).set_z_limits z1 z2).get p = true ∧
      ((M.set_z_limits z1 z2).set_x_limits x1 x2).get p = true) ∧
    ((M.XL = -1 ∨ (M.XL ≤ p.x ∧ p.x ≤ M.XR)) → (M.ZL = -1 ∨ (M.ZL ≤ p.z ∧ p.z ≤ M.ZR)) →
      M.get p = decide (M.m p.x p.y p.z ≠ 0)) ∧
    (M.set_x_limits x1 x2).m = M.m ∧ (M.set_z_limits z1 z2).m = M.m ∧
    (M.set_x_limits x1 x2).R = M.R ∧ (M.set_z_limits z1 z2).R = M.R := by
  have hx : x1 ≠ -1 := by omega
  have hz : z1 ≠ -1 := by omega
  refine ⟨?_, ?_, ?_, ?_, rfl, rfl, rfl, rfl⟩
  · intro h
    simp only [Matrix.get, Matrix.set_x_limits]
    rw [if_pos ⟨hx, h⟩]
  · intro h
    simp only [Matrix.get, Matrix.set_z_limits]
    by_cases hc : M.XL ≠ -1 ∧ (p.x < M.XL ∨ p.x > M.XR)
    · rw [if_pos hc]
    · rw [if_neg hc, if_pos ⟨hz, h⟩]
  · intro h
    simp only [Matrix.get, Matrix.set_x_limits, Matrix.set_z_limits]
    by_cases h1 : p.x < x1 ∨ p.x > x2
    · rw [if_pos ⟨hx, h1⟩]
      simp
    · have h2 : p.z < z1 ∨ p.z > z2 := by omega
      rw [if_neg (fun c => h1 c.2), if_pos ⟨hz, h2⟩]
      simp
  · intro h1 h2
    simp only [Matrix.get]
    rw [if_neg (by omega), if_neg (by omega)]

/-- C11 on the two-cell grid with the x range `[1, 1]` and the z range
`[0, 0]`: the stored cell `(0,0,0)` lies outside the x range and the empty cell
`(1,0,1)` outside the z range, and both read as filled. -/
theorem get_with_limits_witness :
    (originPair.set_x_limits 1 1).get ⟨0, 0, 0⟩ = true ∧
    (originPair.set_z_limits 0 0).get ⟨1, 0, 1⟩ = true ∧
    originPair.get ⟨1, 0, 1⟩ = false :=
  ⟨(get_with_limits originPair ⟨0, 0, 0⟩ 1 1 0 0 (by decide) (by decide)).1 (by decide),
   (get_with_limits originPair ⟨1, 0, 1⟩ 1 1 0 0 (by decide) (by decide)).2.1 (by decide),
   by decide⟩

/-! ## The sub-vector check -/

theorem b2i_ne_zero (b : Bool) : b2i b ≠ 0 ↔ b = true := by
  cases b <;> decide

theorem and32_one_b2i (b : Bool) : and32 1 (b2i b) = b2i b := by
  cases b <;> decide

theorem and32_neg_one_b2i (b : Bool) : and32 (-1) (b2i b) = b2i b := by
  cases b <;> decide

theorem and32_zero_b2i (b : Bool) : and32 0 (b2i b) = 0 := by
  cases b <;> decide

theorem subdeltas_check_unit (x y z : Int) (f : Point → Bool)
    (hx : x = -1 ∨ x = 0 ∨ x = 1) (hy : y = -1 ∨ y = 0 ∨ y = 1)
    (hz : z = -1 ∨ z = 0 ∨ z = 1) :
    check_for_all_subdeltas ⟨x, y, z⟩ f = true ↔ all_subdeltas_hold ⟨x, y, z⟩ f := by
  rcases hx with rfl | rfl | rfl <;> rcases hy with rfl | rfl | rfl <;>
    rcases hz with rfl | rfl | rfl <;>
    simp [check_for_all_subdeltas, all_subdeltas_hold, and32_one_b2i, and32_neg_one_b2i,
      and32_zero_b2i, b2i_ne_zero]

/-- C15: for a direction `d` with every component in `{-1, 0, 1}` and any
predicate `f`, `check_for_all_subdeltas(d, f)` is true exactly if `f` holds on
every single-axis sub-vector of `d` with a non-zero component and on every
two-axis sub-vector of `d` with both components non-zero. -/
theorem check_for_all_subdeltas_unit (d : Point) (f : Point → Bool)
    (hx : d.x = -1 ∨ d.x = 0 ∨ d.x = 1) (hy : d.y = -1 ∨ d.y = 0 ∨ d.y = 1)
    (hz : d.z = -1 ∨ d.z = 0 ∨ d.z = 1) :
    check_for_all_subdeltas d f = true ↔ all_subdeltas_hold d f := by
  cases d with
  | mk x y z =>
    simp only at hx hy hz
    constructor
    · intro h
      exact (subdeltas_check_unit x y z f hx hy hz).1 h
    · intro h
      exact (subdeltas_check_unit x y z f hx hy hz).2 h

/-- C15 at the direction `(1, -1, 0)` with a predicate that rejects only the
diagonal sub-vector `(1, -1, 0)`: the check is false. -/
theorem check_for_all_subdeltas_unit_witness :
    check_for_all_subdeltas ⟨1, -1, 0⟩ (fun b => decide (b ≠ ⟨1, -1, 0⟩)) = false ∧
    ¬ all_subdeltas_hold ⟨1, -1, 0⟩ (fun b => decide (b ≠ ⟨1, -1, 0⟩)) :=
  ⟨by decide,
   fun h => absurd
     ((check_for_all_subdeltas_unit ⟨1, -1, 0⟩ (fun b => decide (b ≠ ⟨1, -1, 0⟩))
        (by decide) (by decide) (by decide)).2 h)
     (by decide)⟩

/-- C16 at the vector `(1, 2, 0)` with the predicate that rejects only the
two-axis sub-vector `(1, 2, 0)`: both components are non-zero and the predicate
fails on that sub-vector, yet `check_for_all_subdeltas` returns true. -/
theorem check_for_all_subdeltas_even_component :
    check_for_all_subdeltas ⟨1, 2, 0⟩ (fun b => decide (b ≠ ⟨1, 2, 0⟩)) = true ∧
    ¬ all_subdeltas_hold ⟨1, 2, 0⟩ (fun b => decide (b ≠ ⟨1, 2, 0⟩)) :=
  ⟨by decide, by decide⟩

/-! ## Bit scans -/

theorem and_shl64_ne_zero (seeds i : Nat) (h : i < 64) :
    seeds &&& shl64 1 (i : Int) ≠ 0 ↔ seeds.testBit i = true := by
  rw [shl64_one i h, Nat.and_two_pow]
  have hp : 0 < 2 ^ i := Nat.two_pow_pos i
  cases hb : seeds.testBit i
  · simp
  · simp only [Bool.toNat_true, one_mul, ne_eq, iff_true]
    omega

theorem find_range_up (p : Nat → Bool) (n : Nat) :
    (∀ i, (List.range n).find? p = some i ↔ i < n ∧ p i = true ∧ ∀ j, j < i → p j = false) ∧
    ((List.range n).find? p = none ↔ ∀ j, j < n → p j = false) := by
  induction n with
  | zero => simp
  | succ n ih =>
    obtain ⟨ih1, ih2⟩ := ih
    rw [List.range_succ, List.find?_append]
    cases hf : (List.range n).find? p with
    | some k =>
      have hk := (ih1 k).1 hf
      simp only [Option.or_some, Option.some.injEq]
      constructor
      · intro i
        constructor
        · rintro rfl
          exact ⟨by omega, hk.2.1, hk.2.2⟩
        · rintro ⟨hi, hpi, hlt⟩
          rcases Nat.lt_trichotomy k i with h | h | h
          · have := hlt k h
            rw [hk.2.1] at this
            exact Bool.noConfusion this
          · exact h
          · have := hk.2.2 i h
            rw [hpi] at this
            exact Bool.noConfusion this
      · constructor
        · intro h
          exact Option.noConfusion h
        · intro h
          have := h k (by omega)
          rw [hk.2.1] at this
          exact Bool.noConfusion this
    | none =>
      have hn := ih2.1 hf
      simp only [Option.none_or, List.find?_cons, List.find?_nil]
      cases hpn : p n
      · simp only
        constructor
        · intro i
          constructor
          · intro h
            exact Option.noConfusion h
          · rintro ⟨hi, hpi, -⟩
            rcases Nat.lt_or_eq_of_le (Nat.lt_succ_iff.1 hi) with h | h
            · rw [hn i h] at hpi
              exact Bool.noConfusion hpi
            · rw [h, hpn] at hpi
              exact Bool.noConfusion hpi
        · constructor
          · intro _ j hj
            rcases Nat.lt_or_eq_of_le (Nat.lt_succ_iff.1 hj) with h | h
            · exact hn j h
            · rw [h]
              exact hpn
          · intro _
            trivial
      · simp only [Option.some.injEq]
        constructor
        · intro i
          constructor
          · rintro rfl
            exact ⟨by omega, hpn, hn⟩
          · rintro ⟨hi, hpi, hlt⟩
            rcases Nat.lt_or_eq_of_le (Nat.lt_succ_iff.1 hi) with h | h
            · rw [hn i h] at hpi
              exact Bool.noConfusion hpi
            · exact h.symm
        · constructor
          · intro h
            exact Option.noConfusion h
          · intro h
            have := h n (by omega)
            rw [hpn] at this
            exact Bool.noConfusion this

theorem find_range_down (p : Nat → Bool) (n : Nat) :
    (∀ i, (List.range n).reverse.find? p = some i ↔
      i < n ∧ p i = true ∧ ∀ j, i < j → j < n → p j = false) ∧
    ((List.range n).reverse.find? p = none ↔ ∀ j, j < n → p j = false) := by
  induction n with
  | zero => simp
  | succ n ih =>
    obtain ⟨ih1, ih2⟩ := ih
    rw [List.range_succ, List.reverse_append, List.reverse_singleton, List.singleton_append,
      List.find?_cons]
    cases hpn : p n
    · simp only
      constructor
      · intro i
        rw [ih1 i]
        constructor
        · rintro ⟨hi, hpi, hgt⟩
          refine ⟨by omega, hpi, ?_⟩
          intro j hj hjn
          rcases Nat.lt_or_eq_of_le (Nat.lt_succ_iff.1 hjn) with h | h
          · exact hgt j hj h
          · rw [h]
            exact hpn
        · rintro ⟨hi, hpi, hgt⟩
          rcases Nat.lt_or_eq_of_le (Nat.lt_succ_iff.1 hi) with h | h
          · exact ⟨h, hpi, fun j hj hjn => hgt j hj (by omega)⟩
          · rw [h, hpn] at hpi
            exact Bool.noConfusion hpi
      · rw [ih2]
        constructor
        · intro h j hj
          rcases Nat.lt_or_eq_of_le (Nat.lt_succ_iff.1 hj) with h' | h'
          · exact h j h'
          · rw [h']
            exact hpn
        · intro h j hj
          exact h j (by omega)
    · simp only [Option.some.injEq]
      constructor
      · intro i
        constructor
        · rintro rfl
          exact ⟨by omega, hpn, fun j hj hjn => by omega⟩
        · rintro ⟨hi, hpi, hgt⟩
          rcases Nat.lt_or_eq_of_le (Nat.lt_succ_iff.1 hi) with h | h
          · have := hgt n h (by omega)
            rw [hpn] at this
            exact Bool.noConfusion this
          · exact h.symm
      · constructor
        · intro h
          exact Option.noConfusion h
        · intro h
          have := h n (by omega)
          rw [hpn] at this
          exact Bool.noConfusion this
theorem low_bit_some_iff (seeds i : Nat) :
    low_bit seeds = some (i : Int) ↔
      i < 40 ∧ seeds.testBit i = true ∧ ∀ j, j < i → seeds.testBit j = false := by
  have hk : kMaxBots.toNat = 40 := rfl
  unfold low_bit
  rw [hk]
  obtain ⟨h1, -⟩ := find_range_up (fun (i : Nat) => decide (seeds &&& shl64 1 i ≠ 0)) 40
  constructor
  · intro h
    cases hf : (List.range 40).find? (fun (i : Nat) => decide (seeds &&& shl64 1 i ≠ 0)) with
    | none => rw [hf] at h; exact Option.noConfusion h
    | some k =>
      rw [hf] at h
      simp only [Option.map_some', Option.some.injEq, Nat.cast_inj] at h
      subst h
      obtain ⟨hk1, hk2, hk3⟩ := (h1 k).1 hf
      refine ⟨hk1, ?_, ?_⟩
      · exact (and_shl64_ne_zero seeds k (by omega)).1 (of_decide_eq_true hk2)
      · intro j hj
        have := hk3 j hj
        have hne := of_decide_eq_false this
        cases hb : seeds.testBit j
        · rfl
        · exact absurd ((and_shl64_ne_zero seeds j (by omega)).2 hb) hne
  · rintro ⟨hi, hb, hlt⟩
    have : (List.range 40).find? (fun (i : Nat) => decide (seeds &&& shl64 1 i ≠ 0)) = some i := by
      rw [h1 i]
      refine ⟨hi, decide_eq_true ((and_shl64_ne_zero seeds i (by omega)).2 hb), ?_⟩
      intro j hj
      apply decide_eq_false
      intro hne
      have := (and_shl64_ne_zero seeds j (by omega)).1 hne
      rw [hlt j hj] at this
      exact Bool.noConfusion this
    rw [this]
    rfl

theorem low_bit_none_iff (seeds : Nat) :
    low_bit seeds = none ↔ ∀ j, j < 40 → seeds.testBit j = false := by
  have hk : kMaxBots.toNat = 40 := rfl
  unfold low_bit
  rw [hk, Option.map_eq_none',
    (find_range_up (fun (i : Nat) => decide (seeds &&& shl64 1 i ≠ 0)) 40).2]
  constructor
  · intro h j hj
    have hne := of_decide_eq_false (h j hj)
    cases hb : seeds.testBit j
    · rfl
    · exact absurd ((and_shl64_ne_zero seeds j (by omega)).2 hb) hne
  · intro h j hj
    apply decide_eq_false
    intro hne
    have := (and_shl64_ne_zero seeds j (by omega)).1 hne
    rw [h j hj] at this
    exact Bool.noConfusion this

theorem high_bit_some_iff (seeds i : Nat) :
    high_bit seeds = some (i : Int) ↔
      i < 40 ∧ seeds.testBit i = true ∧ ∀ j, i < j → j < 40 → seeds.testBit j = false := by
  have hk : kMaxBots.toNat = 40 := rfl
  unfold high_bit
  rw [hk]
  obtain ⟨h1, -⟩ := find_range_down (fun (i : Nat) => decide (seeds &&& shl64 1 i ≠ 0)) 40
  constructor
  · intro h
    cases hf : (List.range 40).reverse.find?
        (fun (i : Nat) => decide (seeds &&& shl64 1 i ≠ 0)) with
    | none => rw [hf] at h; exact Option.noConfusion h
    | some k =>
      rw [hf] at h
      simp only [Option.map_some', Option.some.injEq, Nat.cast_inj] at h
      subst h
      obtain ⟨hk1, hk2, hk3⟩ := (h1 k).1 hf
      refine ⟨hk1, ?_, ?_⟩
      · exact (and_shl64_ne_zero seeds k (by omega)).1 (of_decide_eq_true hk2)
      · intro j hj hj40
        have := hk3 j hj hj40
        have hne := of_decide_eq_false this
        cases hb : seeds.testBit j
        · rfl
        · exact absurd ((and_shl64_ne_zero seeds j (by omega)).2 hb) hne
  · rintro ⟨hi, hb, hgt⟩
    have : (List.range 40).reverse.find?
        (fun (i : Nat) => decide (seeds &&& shl64 1 i ≠ 0)) = some i := by
      rw [h1 i]
      refine ⟨hi, decide_eq_true ((and_shl64_ne_zero seeds i (by omega)).2 hb), ?_⟩
      intro j hj hj40
      apply decide_eq_false
      intro hne
      have := (and_shl64_ne_zero seeds j (by omega)).1 hne
      rw [hgt j hj hj40] at this
      exact Bool.noConfusion this
    rw [this]
    rfl

theorem high_bit_none_iff (seeds : Nat) :
    high_bit seeds = none ↔ ∀ j, j < 40 → seeds.testBit j = false := by
  have hk : kMaxBots.toNat = 40 := rfl
  unfold high_bit
  rw [hk, Option.map_eq_none',
    (find_range_down (fun (i : Nat) => decide (seeds &&& shl64 1 i ≠ 0)) 40).2]
  constructor
  · intro h j hj
    have hne := of_decide_eq_false (h j hj)
    cases hb : seeds.testBit j
    · rfl
    · exact absurd ((and_shl64_ne_zero seeds j (by omega)).2 hb) hne
  · intro h j hj
    apply decide_eq_false
    intro hne
    have := (and_shl64_ne_zero seeds j (by omega)).1 hne
    rw [h j hj] at this
    exact Bool.noConfusion this

/-- C18: `low_bit` returns the smallest and `high_bit` the largest set bit
position below 40; each fails its assertion exactly when no bit in `0 .. 39`
is set; and for `0 ≤ a ≤ b ≤ 39`, `low_bit(make_seeds(a, b)) = a` and
`high_bit(make_seeds(a, b)) = b`. -/
theorem bit_scans (seeds : Nat) (a b : Int) (ha : 0 ≤ a) (hab : a ≤ b) (hb : b ≤ 39) :
    (∀ i : Nat, low_bit seeds = some (i : Int) ↔
      i < 40 ∧ seeds.testBit i = true ∧ ∀ j, j < i → seeds.testBit j = false) ∧
    (∀ i : Nat, high_bit seeds = some (i : Int) ↔
      i < 40 ∧ seeds.testBit i = true ∧ ∀ j, i < j → j < 40 → seeds.testBit j = false) ∧
    ((∃ i, i < 40 ∧ seeds.testBit i = true) →
      ∃ lo hi : Nat, low_bit seeds = some (lo : Int) ∧ high_bit seeds = some (hi : Int)) ∧
    (low_bit seeds = none ↔ ∀ j, j < 40 → seeds.testBit j = false) ∧
    (high_bit seeds = none ↔ ∀ j, j < 40 → seeds.testBit j = false) ∧
    low_bit (make_seeds a b) = some a ∧ high_bit (make_seeds a b) = some b := by
  refine ⟨low_bit_some_iff seeds, high_bit_some_iff seeds, ?_, low_bit_none_iff seeds,
    high_bit_none_iff seeds, ?_, ?_⟩
  · rintro ⟨i, hi, hbit⟩
    have hl : low_bit seeds ≠ none := by
      rw [Ne, low_bit_none_iff]
      intro h
      rw [h i hi] at hbit
      exact Bool.noConfusion hbit
    have hh : high_bit seeds ≠ none := by
      rw [Ne, high_bit_none_iff]
      intro h
      rw [h i hi] at hbit
      exact Bool.noConfusion hbit
    unfold low_bit at hl ⊢
    unfold high_bit at hh ⊢
    cases h1 : (List.range kMaxBots.toNat).find?
        (fun (i : Nat) => decide (seeds &&& shl64 1 i ≠ 0)) with
    | none => rw [h1] at hl; exact absurd rfl hl
    | some lo =>
      cases h2 : (List.range kMaxBots.toNat).reverse.find?
          (fun (i : Nat) => decide (seeds &&& shl64 1 i ≠ 0)) with
      | none => rw [h2] at hh; exact absurd rfl hh
      | some hi => exact ⟨lo, hi, rfl, rfl⟩
  · obtain ⟨a, rfl⟩ := Int.eq_ofNat_of_zero_le ha
    obtain ⟨b, rfl⟩ := Int.eq_ofNat_of_zero_le (le_trans ha hab)
    rw [low_bit_some_iff]
    refine ⟨by omega, ?_, ?_⟩
    · rw [make_seeds_testBit a b (by omega) (by omega)]
      exact decide_eq_true ⟨le_refl a, by omega⟩
    · intro j hj
      rw [make_seeds_testBit a b (by omega) (by omega)]
      exact decide_eq_false (by omega)
  · obtain ⟨a, rfl⟩ := Int.eq_ofNat_of_zero_le ha
    obtain ⟨b, rfl⟩ := Int.eq_ofNat_of_zero_le (le_trans ha hab)
    rw [high_bit_some_iff]
    refine ⟨by omega, ?_, ?_⟩
    · rw [make_seeds_testBit a b (by omega) (by omega)]
      exact decide_eq_true ⟨by omega, le_refl b⟩
    · intro j hj hj40
      rw [make_seeds_testBit a b (by omega) (by omega)]
      exact decide_eq_false (by omega)

/-- C18 at the range `[3, 17]`: the scans return its two ends. -/
theorem bit_scans_witness :
    low_bit (make_seeds 3 17) = some 3 ∧ high_bit (make_seeds 3 17) = some 17 :=
  ⟨(bit_scans 0 3 17 (by decide) (by decide) (by decide)).2.2.2.2.2.1,
   (bit_scans 0 3 17 (by decide) (by decide) (by decide)).2.2.2.2.2.2⟩

/-! ## Coarse boxes -/

theorem is_valid_s_bounds (M : Matrix) (p : Point) (s : Int) (hs : 1 ≤ s)
    (hv : M.is_valid_s p s = true) :
    (0 ≤ p.x * s ∧ p.x * s + s ≤ M.R) ∧ (0 ≤ p.y * s ∧ p.y * s + s ≤ M.R) ∧
    (0 ≤ p.z * s ∧ p.z * s + s ≤ M.R) ∧
    (p.x = 0 ∨ s ≤ p.x * s) ∧ (p.y = 0 ∨ s ≤ p.y * s) ∧ (p.z = 0 ∨ s ≤ p.z * s) := by
  simp only [Matrix.is_valid_s, Bool.and_eq_true, decide_eq_true_eq, ge_iff_le] at hv
  obtain ⟨⟨⟨⟨⟨hx0, hy0⟩, hz0⟩, hx⟩, hy⟩, hz⟩ := hv
  have hR : 0 ≤ M.R := by
    by_contra hneg
    have h1 : Int.tdiv M.R s = -(Int.tdiv (-M.R) s) := by
      rw [Int.neg_tdiv, neg_neg]
    have h2 : 0 ≤ Int.tdiv (-M.R) s := Int.tdiv_nonneg (by omega) (by omega)
    omega
  rw [Int.tdiv_eq_ediv hR (by omega)] at hx hy hz
  have key : ∀ v : Int, 0 ≤ v → v < M.R / s →
      (0 ≤ v * s ∧ v * s + s ≤ M.R) ∧ (v = 0 ∨ s ≤ v * s) := by
    intro v hv0 hv
    have h1 : v + 1 ≤ M.R / s := by omega
    rw [Int.le_ediv_iff_mul_le (by omega)] at h1
    have h2 : (v + 1) * s = v * s + s := by ring
    have h3 : 0 ≤ v * s := mul_nonneg hv0 (by omega)
    refine ⟨⟨h3, by omega⟩, ?_⟩
    by_cases h0 : v = 0
    · exact Or.inl h0
    · right
      have h4 : 1 ≤ v := by omega
      have h5 : 1 * s ≤ v * s := Int.mul_le_mul_of_nonneg_right h4 (by omega)
      omega
  exact ⟨(key p.x hx0 hx).1, (key p.y hy0 hy).1, (key p.z hz0 hz).1,
    (key p.x hx0 hx).2, (key p.y hy0 hy).2, (key p.z hz0 hz).2⟩

theorem get_region_corners (p : Point) (s : Int) (hs : 1 ≤ s) :
    (get_region p s).a = ⟨p.x * s, p.y * s, p.z * s⟩ ∧
    (get_region p s).b = ⟨p.x * s + s - 1, p.y * s + s - 1, p.z * s + s - 1⟩ := by
  simp only [get_region, Region.ctor, Point.mk.injEq]
  refine ⟨⟨?_, ?_, ?_⟩, ?_, ?_, ?_⟩ <;> omega

/-- C19: for a side `s ≥ 1` and a coarse coordinate `p` with `is_valid(p, s)`
(which forces `R ≥ 1`), both corners of `get_region(p, s)` are valid fine-grid cells,
and every table index that `get_sum` reads for that region lies in
`[0, R)^3`. -/
theorem get_region_reads_in_grid (M : Matrix) (p : Point) (s : Int) (hs : 1 ≤ s)
    (hv : M.is_valid_s p s = true) :
    M.is_valid (get_region p s).a = true ∧ M.is_valid (get_region p s).b = true ∧
    ∀ q ∈ Matrix.get_sum_reads (get_region p s), M.is_valid q = true := by
  obtain ⟨⟨hx0, hx⟩, ⟨hy0, hy⟩, ⟨hz0, hz⟩, -, -, -⟩ := is_valid_s_bounds M p s hs hv
  obtain ⟨ha, hb⟩ := get_region_corners p s hs
  refine ⟨?_, ?_, ?_⟩
  · rw [ha]
    simp only [Matrix.is_valid, Bool.and_eq_true, decide_eq_true_eq]
    omega
  · rw [hb]
    simp only [Matrix.is_valid, Bool.and_eq_true, decide_eq_true_eq]
    omega
  · intro q hq
    simp only [Matrix.get_sum_reads, ha, hb] at hq
    simp only [Matrix.is_valid, Bool.and_eq_true, decide_eq_true_eq]
    by_cases gx : p.x * s - 1 > 0 <;> by_cases gy : p.y * s - 1 > 0 <;>
      by_cases gz : p.z * s - 1 > 0 <;>
      simp only [gx, gy, gz, if_true, if_false, List.append_nil, List.mem_append,
        List.mem_singleton, List.mem_cons, List.not_mem_nil, or_false] at hq <;>
      (try casesm* _ ∨ _) <;> subst q <;> simp only <;> omega

/-- C19 on the two-cell grid of resolution 2 with side 1 at `(1,0,0)`. -/
theorem get_region_reads_in_grid_witness :
    originPair.is_valid_s ⟨1, 0, 0⟩ 1 = true ∧
    originPair.is_valid (get_region ⟨1, 0, 0⟩ 1).a = true ∧
    originPair.is_valid (get_region ⟨1, 0, 0⟩ 1).b = true :=
  ⟨by decide,
   (get_region_reads_in_grid originPair ⟨1, 0, 0⟩ 1 (by decide) (by decide)).1,
   (get_region_reads_in_grid originPair ⟨1, 0, 0⟩ 1 (by decide) (by decide)).2.1⟩

theorem sum_map_ite_const {α : Type} (l : List α) (p : α → Bool) (K : Nat) :
    (l.map fun a => if p a = true then K else 0).sum = l.countP p * K := by
  induction l with
  | nil => simp
  | cons a t ih =>
    rw [List.map_cons, List.sum_cons, ih, List.countP_cons]
    split <;> ring

theorem countP_range_interval (n : Nat) (a b : Int) (ha : 0 ≤ a) :
    (List.range n).countP (fun (x : Nat) => decide (a ≤ (x : Int)) && decide ((x : Int) ≤ b)) =
      (min b ((n : Int) - 1) - a + 1).toNat := by
  induction n with
  | zero =>
    simp only [List.range_zero, List.countP_nil]
    omega
  | succ n ih =>
    rw [List.range_succ, List.countP_append, ih, List.countP_cons, List.countP_nil]
    by_cases h1 : a ≤ (n : Int) <;> by_cases h2 : (n : Int) ≤ b <;> simp [h1, h2] <;> omega

/-- The number of grid cells in a region that lies inside the grid. -/
theorem countP_cells_contains (M : Matrix) (r : Region)
    (hx0 : 0 ≤ r.a.x) (hy0 : 0 ≤ r.a.y) (hz0 : 0 ≤ r.a.z)
    (hx : r.a.x ≤ r.b.x) (hy : r.a.y ≤ r.b.y) (hz : r.a.z ≤ r.b.z)
    (hX : r.b.x < M.R) (hY : r.b.y < M.R) (hZ : r.b.z < M.R) :
    M.cells.countP (fun p => r.contains p) =
      (r.b.x - r.a.x + 1).toNat * ((r.b.y - r.a.y + 1).toNat * (r.b.z - r.a.z + 1).toNat) := by
  have cz := countP_range_interval M.R.toNat r.a.z r.b.z hz0
  have cy := countP_range_interval M.R.toNat r.a.y r.b.y hy0
  have cx := countP_range_interval M.R.toNat r.a.x r.b.x hx0
  have ez : (min r.b.z ((M.R.toNat : Int) - 1) - r.a.z + 1).toNat = (r.b.z - r.a.z + 1).toNat := by
    omega
  have ey : (min r.b.y ((M.R.toNat : Int) - 1) - r.a.y + 1).toNat = (r.b.y - r.a.y + 1).toNat := by
    omega
  have ex : (min r.b.x ((M.R.toNat : Int) - 1) - r.a.x + 1).toNat = (r.b.x - r.a.x + 1).toNat := by
    omega
  rw [ez] at cz
  rw [ey] at cy
  rw [ex] at cx
  unfold Matrix.cells
  rw [countP_flatMap_sum]
  have inner : ∀ x y : Nat,
      ((List.range M.R.toNat).map fun (z : Nat) => (⟨x, y, z⟩ : Point)).countP
        (fun p => r.contains p) =
      if (decide (r.a.x ≤ (x : Int)) && decide ((x : Int) ≤ r.b.x)) = true then
        (if (decide (r.a.y ≤ (y : Int)) && decide ((y : Int) ≤ r.b.y)) = true then
          (r.b.z - r.a.z + 1).toNat else 0)
      else 0 := by
    intro x y
    rw [List.countP_map, ← cz]
    by_cases h1 : (decide (r.a.x ≤ (x : Int)) && decide ((x : Int) ≤ r.b.x)) = true
    · by_cases h2 : (decide (r.a.y ≤ (y : Int)) && decide ((y : Int) ≤ r.b.y)) = true
      · rw [if_pos h1, if_pos h2]
        apply List.countP_congr
        intro z _
        simp only [Bool.and_eq_true, decide_eq_true_eq] at h1 h2
        simp [Region.contains, h1, h2]
      · rw [if_pos h1, if_neg h2, List.countP_eq_zero]
        intro z _
        simp only [Bool.and_eq_true, decide_eq_true_eq] at h2
        simp only [Region.contains, Function.comp, Bool.and_eq_true, decide_eq_true_eq]
        tauto
    · rw [if_neg h1, List.countP_eq_zero]
      intro z _
      simp only [Bool.and_eq_true, decide_eq_true_eq] at h1
      simp only [Region.contains, Function.comp, Bool.and_eq_true, decide_eq_true_eq]
      tauto
  have middle : ∀ x : Nat,
      ((List.range M.R.toNat).flatMap fun (y : Nat) =>
        (List.range M.R.toNat).map fun (z : Nat) => (⟨x, y, z⟩ : Point)).countP
        (fun p => r.contains p) =
      if (decide (r.a.x ≤ (x : Int)) && decide ((x : Int) ≤ r.b.x)) = true then
        (r.b.y - r.a.y + 1).toNat * (r.b.z - r.a.z + 1).toNat
      else 0 := by
    intro x
    rw [countP_flatMap_sum]
    simp only [inner]
    by_cases h1 : (decide (r.a.x ≤ (x : Int)) && decide ((x : Int) ≤ r.b.x)) = true
    · simp only [h1, if_true]
      rw [sum_map_ite_const, cy]
    · simp only [h1, if_false]
      simp
  simp only [middle]
  rw [sum_map_ite_const, cx]

theorem countP_and_eq_iff {α : Type} (l : List α) (p q : α → Bool) :
    l.countP (fun a => p a && q a) = l.countP p ↔ ∀ a ∈ l, p a = true → q a = true := by
  have h1 : l.countP (fun a => p a && q a) = (l.filter p).countP q := by
    rw [List.countP_filter]
    apply List.countP_congr
    intro a _
    rw [Bool.and_comm]
  rw [h1, List.countP_eq_length_filter p l, List.countP_eq_length]
  simp only [List.mem_filter, and_imp]
/-- C17: on a grid with a correct prefix-sum table, for a side `s ≥ 2` and a
coarse coordinate `p` with `is_valid(p, s)`, the low corner of the box has
every coordinate 0 or at least 2, and `check_b(p, s)` is true exactly if every
cell of the box from `(p.x*s, p.y*s, p.z*s)` to
`(p.x*s+s-1, p.y*s+s-1, p.z*s+s-1)` is filled, that is if the box holds `s^3`
filled cells. -/
theorem check_b_side_ge_two (M : Matrix) (hs : M.IsPrefixSum) (p : Point) (s : Int)
    (h2 : 2 ≤ s) (hv : M.is_valid_s p s = true) :
    ((p.x * s = 0 ∨ 2 ≤ p.x * s) ∧ (p.y * s = 0 ∨ 2 ≤ p.y * s) ∧
      (p.z * s = 0 ∨ 2 ≤ p.z * s)) ∧
    M.check_b p s = some (decide ((M.count_filled (get_region p s) : Int) = s ^ 3)) ∧
    (M.check_b p s = some true ↔
      ∀ x y z : Int, p.x * s ≤ x → x ≤ p.x * s + s - 1 → p.y * s ≤ y → y ≤ p.y * s + s - 1 →
        p.z * s ≤ z → z ≤ p.z * s + s - 1 → M.m x y z ≠ 0) := by
  obtain ⟨⟨hx0, hx⟩, ⟨hy0, hy⟩, ⟨hz0, hz⟩, lx, ly, lz⟩ :=
    is_valid_s_bounds M p s (by omega) hv
  obtain ⟨ha, hb⟩ := get_region_corners p s (by omega)
  have lx2 : p.x * s = 0 ∨ 2 ≤ p.x * s := by
    rcases lx with h | h
    · left; rw [h, zero_mul]
    · right; omega
  have ly2 : p.y * s = 0 ∨ 2 ≤ p.y * s := by
    rcases ly with h | h
    · left; rw [h, zero_mul]
    · right; omega
  have lz2 : p.z * s = 0 ∨ 2 ≤ p.z * s := by
    rcases lz with h | h
    · left; rw [h, zero_mul]
    · right; omega
  have hsum : M.get_sum (get_region p s) = some (M.count_filled (get_region p s) : Int) := by
    apply get_sum_eq_count_filled M hs (get_region p s) <;> simp only [ha, hb] <;>
      omega
  have hcb : M.check_b p s =
      some (decide ((M.count_filled (get_region p s) : Int) = s ^ 3)) := by
    simp only [Matrix.check_b, hsum, Option.map_some', Option.some.injEq]
    have e : s * s * s = s ^ 3 := by ring
    rw [e]
  refine ⟨⟨lx2, ly2, lz2⟩, hcb, ?_⟩
  rw [hcb]
  simp only [Option.some.injEq, decide_eq_true_eq]
  have hvol := countP_cells_contains M (get_region p s)
    (by rw [ha]; exact hx0) (by rw [ha]; exact hy0) (by rw [ha]; exact hz0)
    (by rw [ha, hb]; simp only; omega) (by rw [ha, hb]; simp only; omega)
    (by rw [ha, hb]; simp only; omega)
    (by rw [hb]; simp only; omega) (by rw [hb]; simp only; omega) (by rw [hb]; simp only; omega)
  have e1 : ((get_region p s).b.x - (get_region p s).a.x + 1) = s := by
    rw [ha, hb]; simp only; omega
  have e2 : ((get_region p s).b.y - (get_region p s).a.y + 1) = s := by
    rw [ha, hb]; simp only; omega
  have e3 : ((get_region p s).b.z - (get_region p s).a.z + 1) = s := by
    rw [ha, hb]; simp only; omega
  rw [e1, e2, e3] at hvol
  have hs3 : s ^ 3 = ((s.toNat * (s.toNat * s.toNat) : Nat) : Int) := by
    have : ((s.toNat : Nat) : Int) = s := Int.toNat_of_nonneg (by omega)
    push_cast
    rw [this]
    ring
  rw [hs3, Nat.cast_inj, ← hvol]
  unfold Matrix.count_filled
  rw [countP_and_eq_iff]
  constructor
  · intro h x y z h1 h2 h3 h4 h5 h6
    have hmem : (⟨x, y, z⟩ : Point) ∈ M.cells := by
      rw [mem_cells]
      simp only
      omega
    have hc : (get_region p s).contains ⟨x, y, z⟩ = true := by
      simp only [Region.contains, ha, hb, Bool.and_eq_true, decide_eq_true_eq]
      omega
    have := h ⟨x, y, z⟩ hmem hc
    simpa using this
  · intro h q _ hc
    simp only [Region.contains, ha, hb, Bool.and_eq_true, decide_eq_true_eq] at hc
    have := h q.x q.y q.z (by omega) (by omega) (by omega) (by omega) (by omega) (by omega)
    simpa using this

theorem fullTwo_table_ok : fullTwo.IsPrefixSum := by
  refine ⟨fun x y z => (x + 1) * (y + 1) * (z + 1), rfl, ?_⟩
  intro x y z hx0 hx hy0 hy hz0 hz
  have hR : fullTwo.R = 2 := rfl
  rw [hR] at hx hy hz
  have ex : x = 0 ∨ x = 1 := by omega
  have ey : y = 0 ∨ y = 1 := by omega
  have ez : z = 0 ∨ z = 1 := by omega
  rcases ex with rfl | rfl <;> rcases ey with rfl | rfl <;> rcases ez with rfl | rfl <;> decide

/-- C17 on the completely filled grid of resolution 2 with side 2 at the
coarse coordinate `(0,0,0)`: the box is the whole grid and `check_b` is true. -/
theorem check_b_side_ge_two_witness :
    fullTwo.IsPrefixSum ∧ fullTwo.is_valid_s ⟨0, 0, 0⟩ 2 = true ∧
    fullTwo.check_b ⟨0, 0, 0⟩ 2 = some true :=
  ⟨fullTwo_table_ok, by decide,
   (check_b_side_ge_two fullTwo fullTwo_table_ok ⟨0, 0, 0⟩ 2 (by decide) (by decide)).2.1.trans
     (by decide)⟩

/-! ## Start selection -/

theorem scan_step_inv (m : Matrix) (n k j : Nat) (st : StartScan) (hn : n ≤ 250)
    (hk : k < n) (hj : j < n) (h : ScanInv m n k j st) :
    ScanInv m n k (j + 1) (StupidSolver2.scan_step m st k j) := by
  unfold StupidSolver2.scan_step
  by_cases hf : m.m k 0 j = 0
  · rw [if_neg (not_not.2 hf)]
    rcases h with ⟨hst, hnone⟩ | ⟨x0, z0, hst, hz0, hseen, hfill, hmin⟩
    · left
      refine ⟨hst, ?_⟩
      intro x z hz hp
      by_cases hxz : x = k ∧ z = j
      · rw [hxz.1, hxz.2]; exact hf
      · exact hnone x z hz (by omega)
    · right
      refine ⟨x0, z0, hst, hz0, by omega, hfill, ?_⟩
      intro x z hz hp hne
      by_cases hxz : x = k ∧ z = j
      · rw [hxz.1, hxz.2] at hne; exact absurd hf hne
      · exact hmin x z hz (by omega) hne
  · rw [if_pos hf]
    rcases h with ⟨hst, hnone⟩ | ⟨x0, z0, hst, hz0, hseen, hfill, hmin⟩
    · have hd : ((k : Int) + (j : Int)) < st.dist := by rw [hst]; simp only; omega
      simp only [hd, if_true]
      right
      refine ⟨k, j, rfl, hj, by omega, hf, ?_⟩
      intro x z hz hp hne
      by_cases hxz : x = k ∧ z = j
      · right; omega
      · exact absurd (hnone x z hz (by omega)) hne
    · by_cases hd : ((k : Int) + (j : Int)) < st.dist
      · simp only [hd, if_true]
        right
        refine ⟨k, j, rfl, hj, by omega, hf, ?_⟩
        rw [hst] at hd
        simp only at hd
        intro x z hz hp hne
        by_cases hxz : x = k ∧ z = j
        · right; omega
        · have := hmin x z hz (by omega) hne
          left; omega
      · simp only [hd, if_false]
        right
        refine ⟨x0, z0, hst, hz0, by omega, hfill, ?_⟩
        rw [hst] at hd
        simp only at hd
        intro x z hz hp hne
        by_cases hxz : x = k ∧ z = j
        · obtain ⟨rfl, rfl⟩ := hxz
          omega
        · exact hmin x z hz (by omega) hne

theorem scan_row_inv (m : Matrix) (n k : Nat) (hn : n ≤ 250) (hk : k < n) (j : Nat) :
    j ≤ n → ∀ st, ScanInv m n k 0 st →
      ScanInv m n k j ((List.range j).foldl
        (fun (st : StartScan) (z : Nat) => StupidSolver2.scan_step m st k z) st) := by
  induction j with
  | zero => intro _ st h; simpa using h
  | succ j ih =>
    intro hj st h
    rw [List.range_succ, List.foldl_append]
    exact scan_step_inv m n k j _ hn hk (by omega) (ih (by omega) st h)

theorem scan_next_row (m : Matrix) (n k : Nat) (st : StartScan) (h : ScanInv m n k n st) :
    ScanInv m n (k + 1) 0 st := by
  rcases h with ⟨hst, hnone⟩ | ⟨x0, z0, hst, hz0, hseen, hfill, hmin⟩
  · left
    exact ⟨hst, fun x z hz hp => hnone x z hz (by omega)⟩
  · right
    exact ⟨x0, z0, hst, hz0, by omega, hfill, fun x z hz hp hne => hmin x z hz (by omega) hne⟩

theorem scan_rows_inv (m : Matrix) (n : Nat) (hn : n ≤ 250) (k : Nat) :
    k ≤ n →
      ScanInv m n k 0 ((List.range k).foldl (fun (st : StartScan) (x : Nat) =>
        (List.range n).foldl (fun (st : StartScan) (z : Nat) =>
          StupidSolver2.scan_step m st x z) st) { x0 := -1, z0 := 1, dist := 1000 }) := by
  induction k with
  | zero =>
    intro _
    left
    exact ⟨rfl, fun x z _ hp => by omega⟩
  | succ k ih =>
    intro hk
    rw [List.range_succ, List.foldl_append]
    exact scan_next_row m n k _ (scan_row_inv m n k hn (by omega) n (le_refl n) _ (ih (by omega)))

theorem scan_inv (S : StupidSolver2) (hR : S.R ≤ 250) :
    ScanInv S.m S.R.toNat S.R.toNat 0 S.scan :=
  scan_rows_inv S.m S.R.toNat (by omega) S.R.toNat (le_refl _)

/-- The start cell of a target with a filled ground cell: it is a filled ground
cell with the least coordinate sum, the first such in scan order. -/
theorem start_of_filled (S : StupidSolver2) (hR : S.R ≤ 250)
    (hex : ∃ x z : Int, 0 ≤ x ∧ x < S.R ∧ 0 ≤ z ∧ z < S.R ∧ S.m.m x 0 z ≠ 0) :
    ∃ x0 z0 : Int, S.start = some ⟨x0, 0, z0⟩ ∧
      0 ≤ x0 ∧ x0 < S.R ∧ 0 ≤ z0 ∧ z0 < S.R ∧ S.m.m x0 0 z0 ≠ 0 ∧
      ∀ x z : Int, 0 ≤ x → x < S.R → 0 ≤ z → z < S.R → S.m.m x 0 z ≠ 0 →
        (x0 + z0 < x + z ∨ (x0 + z0 = x + z ∧ (x0 < x ∨ (x0 = x ∧ z0 ≤ z)))) := by
  obtain ⟨x, z, hx0, hx, hz0, hz, hne⟩ := hex
  rcases scan_inv S hR with ⟨hst, hnone⟩ | ⟨x0, z0, hst, hz0', hseen, hfill, hmin⟩
  · have := hnone x.toNat z.toNat (by omega) (by omega)
    rw [Int.toNat_of_nonneg hx0, Int.toNat_of_nonneg hz0] at this
    exact absurd this hne
  · refine ⟨x0, z0, ?_, by omega, by omega, by omega, by omega, hfill, ?_⟩
    · unfold StupidSolver2.start
      simp only [hst]
      rw [if_pos (by omega)]
    · intro x z hx0 hx hz0 hz hne
      have := hmin x.toNat z.toNat (by omega) (by omega)
      rw [Int.toNat_of_nonneg hx0, Int.toNat_of_nonneg hz0] at this
      have := this hne
      omega

theorem start_of_empty (S : StupidSolver2) (hR : S.R ≤ 250)
    (hno : ∀ x z : Int, 0 ≤ x → x < S.R → 0 ≤ z → z < S.R → S.m.m x 0 z = 0) :
    S.start = none := by
  rcases scan_inv S hR with ⟨hst, -⟩ | ⟨x0, z0, -, hz0, hseen, hfill, -⟩
  · unfold StupidSolver2.start
    simp only [hst]
    rfl
  · exact absurd (hno x0 z0 (by omega) (by omega) (by omega) (by omega)) hfill

/-- C12: on a target of resolution `R ≤ 250` with a filled cell on the ground
layer, `solve` hands to `BFS` a cell `(x0, 0, z0)` that is filled in the target,
whose `x0 + z0` is least among the filled ground cells, and that is the first
such cell in scan order (x ascending, then z ascending); when no ground cell is
filled, `Assert(x0 != -1)` fails and the trace writer has received nothing. -/
theorem solve_start_selection (S : StupidSolver2) (rc : ReachCell) (deltas : List Point)
    (fuel : Nat) (hR : S.R ≤ 250) :
    ((∃ x z : Int, 0 ≤ x ∧ x < S.R ∧ 0 ≤ z ∧ z < S.R ∧ S.m.m x 0 z ≠ 0) →
      ∃ x0 z0 : Int, S.start = some ⟨x0, 0, z0⟩ ∧
        StupidSolver2.solve rc deltas fuel S =
          (match StupidSolver2.BFS rc deltas fuel S.prepared ⟨x0, 0, z0⟩ with
            | none => Outcome.out_of_fuel
            | some S2 => Outcome.done (S2.reach_cell rc ⟨0, 0, 0⟩ true)) ∧
        0 ≤ x0 ∧ x0 < S.R ∧ 0 ≤ z0 ∧ z0 < S.R ∧ S.m.m x0 0 z0 ≠ 0 ∧
        ∀ x z : Int, 0 ≤ x → x < S.R → 0 ≤ z → z < S.R → S.m.m x 0 z ≠ 0 →
          (x0 + z0 < x + z ∨ (x0 + z0 = x + z ∧ (x0 < x ∨ (x0 = x ∧ z0 ≤ z))))) ∧
    ((∀ x z : Int, 0 ≤ x → x < S.R → 0 ≤ z → z < S.R → S.m.m x 0 z = 0) →
      StupidSolver2.solve rc deltas fuel S = Outcome.assert_failed S) := by
  constructor
  · intro hex
    obtain ⟨x0, z0, hstart, rest⟩ := start_of_filled S hR hex
    refine ⟨x0, z0, hstart, ?_, rest⟩
    unfold StupidSolver2.solve
    rw [hstart]
  · intro hno
    unfold StupidSolver2.solve
    rw [start_of_empty S hR hno]

/-- C12 on the two-cell grid `(0,0,0)`, `(1,0,0)`: the search starts at
`(0,0,0)`; and on the empty grid the assertion fails. -/
theorem solve_start_selection_witness :
    (solverOn originPair).start = some ⟨0, 0, 0⟩ ∧
    StupidSolver2.solve (fun _ t _ _ => t) deltas26 0 (solverOn emptyTwo) =
      Outcome.assert_failed (solverOn emptyTwo) := by
  constructor
  · obtain ⟨x0, z0, hstart, -, hx0, -, hz0, -, -, hmin⟩ :=
      (solve_start_selection (solverOn originPair) (fun _ t _ _ => t) deltas26 0
        (by decide)).1 ⟨0, 0, by decide⟩
    have h := hmin 0 0 (by decide) (by decide) (by decide) (by decide) (by decide)
    have e1 : x0 = 0 := by omega
    have e2 : z0 = 0 := by omega
    rw [hstart, e1, e2]
  · exact (solve_start_selection (solverOn emptyTwo) (fun _ t _ _ => t) deltas26 0
      (by decide)).2 (fun _ _ _ _ _ _ => rfl)

/-! ## The search loop -/

theorem cell_set (M : Matrix) (p q : Point) (v : Int) :
    (M.set p v).cell q = if q = p then v else M.cell q := by
  cases p; cases q
  simp only [Matrix.set, Matrix.cell, Point.mk.injEq]

theorem passes_eq_edge_test (S : StupidSolver2) (t d : Point) :
    S.passes t d = edge_test S.m S.cur.R t d := by
  simp only [StupidSolver2.passes, edge_test, Matrix.is_valid, ge_iff_le]
  congr 2
  rw [Bool.eq_iff_iff]
  simp only [Bool.and_eq_true, decide_eq_true_eq]
  tauto

theorem visit_delta_eq (t : Point) (st : BFSState) (d : Point) :
    StupidSolver2.visit_delta t st d =
      if st.2.passes t d = true then StupidSolver2.push st (t + d) else st := by
  unfold StupidSolver2.visit_delta StupidSolver2.passes
  by_cases h1 : st.2.cur.is_valid (t + d) = true
  · by_cases h2 : st.2.m.cell (t + d) = 0
    · simp [h1, h2]
    · by_cases h3 : check_for_all_subdeltas d
          (fun b => decide (st.2.m.cell (t + b) ≠ 0)) = true
      · simp [h1, h2, h3]
      · simp [h1, h2, h3]
  · simp [h1]

/-- The effect of `push`: only the queue and the marks change; a marked cell is
skipped, an unmarked cell is appended and marked. -/
theorem push_spec (st : BFSState) (p : Point) :
    (StupidSolver2.push st p).2.m = st.2.m ∧ (StupidSolver2.push st p).2.R = st.2.R ∧
    (StupidSolver2.push st p).2.cur = st.2.cur ∧ (StupidSolver2.push st p).2.w = st.2.w ∧
    (StupidSolver2.push st p).2.b = st.2.b ∧
    ((st.2.temp_bfs.cell p ≠ 0 ∧ StupidSolver2.push st p = st) ∨
     (st.2.temp_bfs.cell p = 0 ∧ (StupidSolver2.push st p).1 = st.1 ++ [p] ∧
      ∀ q, (StupidSolver2.push st p).2.temp_bfs.cell q ≠ 0 ↔
        (st.2.temp_bfs.cell q ≠ 0 ∨ q = p))) := by
  unfold StupidSolver2.push
  by_cases h : st.2.temp_bfs.cell p = 0
  · rw [if_neg (not_not.2 h)]
    refine ⟨rfl, rfl, rfl, rfl, rfl, Or.inr ⟨h, rfl, ?_⟩⟩
    intro q
    simp only [cell_set]
    by_cases hq : q = p
    · simp [hq]
    · simp [hq]
  · rw [if_pos h]
    exact ⟨rfl, rfl, rfl, rfl, rfl, Or.inl ⟨h, rfl⟩⟩

/-- The effect of the loop over the directions while `t` is processed: the
queue grows by distinct, so far unmarked cells that pass the tests, these
become marked, and afterwards every cell that passes the tests is marked. -/
theorem visit_fold_spec (t : Point) (ds : List Point) :
    ∀ st : BFSState,
      (ds.foldl (StupidSolver2.visit_delta t) st).2.m = st.2.m ∧
      (ds.foldl (StupidSolver2.visit_delta t) st).2.R = st.2.R ∧
      (ds.foldl (StupidSolver2.visit_delta t) st).2.cur = st.2.cur ∧
      (ds.foldl (StupidSolver2.visit_delta t) st).2.w = st.2.w ∧
      (ds.foldl (StupidSolver2.visit_delta t) st).2.b = st.2.b ∧
      ∃ new, (ds.foldl (StupidSolver2.visit_delta t) st).1 = st.1 ++ new ∧ new.Nodup ∧
        (∀ a ∈ new, st.2.temp_bfs.cell a = 0 ∧
          ∃ d ∈ ds, a = t + d ∧ st.2.passes t d = true) ∧
        (∀ q, (ds.foldl (StupidSolver2.visit_delta t) st).2.temp_bfs.cell q ≠ 0 ↔
          (st.2.temp_bfs.cell q ≠ 0 ∨ q ∈ new)) ∧
        (∀ d ∈ ds, st.2.passes t d = true →
          (ds.foldl (StupidSolver2.visit_delta t) st).2.temp_bfs.cell (t + d) ≠ 0) := by
  induction ds with
  | nil =>
    intro st
    refine ⟨rfl, rfl, rfl, rfl, rfl, [], by simp, List.nodup_nil, ?_, ?_, ?_⟩
    · intro a ha; exact absurd ha (List.not_mem_nil a)
    · intro q; simp
    · intro d hd; exact absurd hd (List.not_mem_nil d)
  | cons d ds ih =>
    intro st
    rw [List.foldl_cons]
    obtain ⟨im, iR, icur, iw, ib, new2, hq2, hnd2, hnew2, hmk2, hall2⟩ :=
      ih (StupidSolver2.visit_delta t st d)
    have hstep := visit_delta_eq t st d
    by_cases hp : st.2.passes t d = true
    · rw [if_pos hp] at hstep
      obtain ⟨pm, pR, pcur, pw, pb, hpush⟩ := push_spec st (t + d)
      rw [← hstep] at pm pR pcur pw pb hpush
      have hpass : ∀ e, (StupidSolver2.visit_delta t st d).2.passes t e = st.2.passes t e := by
        intro e
        rw [passes_eq_edge_test, passes_eq_edge_test, pm, pcur]
      refine ⟨im.trans pm, iR.trans pR, icur.trans pcur, iw.trans pw, ib.trans pb, ?_⟩
      rcases hpush with ⟨hmarked, hsame⟩ | ⟨hclear, hq1, hmk1⟩
      · rw [hsame] at hq2 hnew2 hmk2 hall2 ⊢
        refine ⟨new2, hq2, hnd2, ?_, hmk2, ?_⟩
        · intro a ha
          obtain ⟨h1, e, he, h2, h3⟩ := hnew2 a ha
          exact ⟨h1, e, List.mem_cons_of_mem d he, h2, h3⟩
        · intro e he hpe
          rcases List.mem_cons.1 he with rfl | he'
          · exact (hmk2 (t + e)).2 (Or.inl hmarked)
          · exact hall2 e he' hpe
      · refine ⟨(t + d) :: new2, ?_, ?_, ?_, ?_, ?_⟩
        · rw [hq2, hq1, List.append_assoc, List.singleton_append]
        · refine List.nodup_cons.2 ⟨?_, hnd2⟩
          intro hmem
          have := (hnew2 (t + d) hmem).1
          exact ((hmk1 (t + d)).2 (Or.inr rfl)) this
        · intro a ha
          rcases List.mem_cons.1 ha with rfl | ha'
          · exact ⟨hclear, d, List.mem_cons_self d ds, rfl, hp⟩
          · obtain ⟨h1, e, he, h2, h3⟩ := hnew2 a ha'
            refine ⟨?_, e, List.mem_cons_of_mem d he, h2, ?_⟩
            · by_contra hne
              exact ((hmk1 a).2 (Or.inl hne)) h1
            · rw [← hpass e]; exact h3
        · intro q
          rw [hmk2 q, hmk1 q, List.mem_cons]
          tauto
        · intro e he hpe
          rcases List.mem_cons.1 he with rfl | he'
          · exact (hmk2 (t + e)).2 (Or.inl ((hmk1 (t + e)).2 (Or.inr rfl)))
          · exact hall2 e he' (by rw [hpass e]; exact hpe)
    · rw [if_neg hp] at hstep
      rw [hstep] at im iR icur iw ib hq2 hnew2 hmk2 hall2 ⊢
      refine ⟨im, iR, icur, iw, ib, new2, hq2, hnd2, ?_, hmk2, ?_⟩
      · intro a ha
        obtain ⟨h1, e, he, h2, h3⟩ := hnew2 a ha
        exact ⟨h1, e, List.mem_cons_of_mem d he, h2, h3⟩
      · intro e he hpe
        rcases List.mem_cons.1 he with rfl | he'
        · exact absurd hpe hp
        · exact hall2 e he' hpe
theorem edge_test_valid (m : Matrix) (R : Int) (t d : Point) (h : edge_test m R t d = true) :
    0 ≤ (t + d).x ∧ (t + d).x < R ∧ 0 ≤ (t + d).y ∧ (t + d).y < R ∧
      0 ≤ (t + d).z ∧ (t + d).z < R := by
  simp only [edge_test, Bool.and_eq_true, decide_eq_true_eq] at h
  exact h.1.1

/-- One iteration of the `while` loop keeps the invariant and moves the
dequeued cell to the list of processed cells. -/
theorem visit_inv (rc : ReachCell) (deltas : List Point) (m : Matrix) (R : Int)
    (w0 : List Action) (p0 : Point) (D : List Point) (t : Point) (q : List Point)
    (S : StupidSolver2) (h : BFSInv m R deltas w0 p0 D (t :: q, S)) :
    BFSInv m R deltas w0 p0 (D ++ [t]) (StupidSolver2.visit rc deltas t q S) := by
  obtain ⟨htarget, hres, hcur, ⟨nw, hw, hfills⟩, hmarks, hnodup, hvalid, hparent, hreach,
    hclosed, hstart⟩ := h
  simp only at htarget hres hcur hw hmarks hnodup hvalid hparent hreach hclosed hstart
  unfold StupidSolver2.visit
  simp only
  generalize hS3 : ({ ({ (S.reach_cell rc t false) with
      w := (S.reach_cell rc t false).w ++ [Action.fill (S.reach_cell rc t false).b.pos t] } :
        StupidSolver2) with
      cur := (S.reach_cell rc t false).cur.set t 1 } : StupidSolver2) = S3
  have e_m : S3.m = m := by rw [← hS3]; exact htarget
  have e_R : S3.R = R := by rw [← hS3]; exact hres
  have e_cur : S3.cur.R = R := by rw [← hS3]; exact hcur
  have e_tb : S3.temp_bfs = S.temp_bfs := by rw [← hS3]; rfl
  have e_w : S3.w = w0 ++ (nw ++ [Action.reach_cell S.b.pos t false,
      Action.fill (rc S.b.pos t S.cur false) t]) := by
    rw [← hS3]
    simp only [StupidSolver2.reach_cell, hw, List.append_assoc, List.singleton_append]
  have e_pass : ∀ d, S3.passes t d = edge_test m R t d := by
    intro d
    rw [passes_eq_edge_test, e_m, e_cur]
  obtain ⟨fm, fR, fcur, fw, -, new, hq, hnd, hnew, hmk, hall⟩ :=
    visit_fold_spec t deltas (q, S3)
  simp only at fm fR fcur fw hq hnew hmk hall
  have hlist : (D ++ [t]) ++ (q ++ new) = (D ++ t :: q) ++ new := by
    simp only [List.append_assoc, List.singleton_append, List.cons_append, List.nil_append]
  have hnew_clear : ∀ a ∈ new, a ∉ D ++ t :: q := by
    intro a ha hmem
    have h1 := (hnew a ha).1
    rw [e_tb] at h1
    exact ((hmarks a).2 hmem) h1
  have hnew_edge : ∀ a ∈ new, code_edge m R deltas t a := by
    intro a ha
    obtain ⟨-, d, hd, rfl, hp⟩ := hnew a ha
    exact ⟨d, hd, rfl, by rw [← e_pass]; exact hp⟩
  have ht_old : t ∈ D ++ t :: q := by simp
  refine ⟨?_, ?_, ?_, ?_, ?_, ?_, ?_, ?_, ?_, ?_, ?_⟩
  · exact fm.trans e_m
  · exact fR.trans e_R
  · rw [fcur]; exact e_cur
  · refine ⟨_, fw.trans e_w, ?_⟩
    simp only [fills, List.filterMap_append] at hfills ⊢
    rw [hfills]
    rfl
  · intro p
    rw [hq, hlist, hmk p, e_tb, hmarks p]
    exact List.mem_append.symm
  · rw [hq, hlist]
    refine List.nodup_append.2 ⟨hnodup, hnd, ?_⟩
    intro a ha1 ha2
    exact hnew_clear a ha2 ha1
  · intro p hp
    simp only at hp
    rw [hq, hlist] at hp
    rcases List.mem_append.1 hp with hp | hp
    · exact hvalid p hp
    · obtain ⟨d, -, rfl, hd⟩ := hnew_edge p hp
      exact edge_test_valid m R t d hd
  · intro p hp
    simp only at hp
    rw [hq, hlist] at hp
    rcases List.mem_append.1 hp with hp | hp
    · rcases hparent p hp with h0 | ⟨t', ht', he⟩
      · exact Or.inl h0
      · exact Or.inr ⟨t', List.mem_append_left _ ht', he⟩
    · exact Or.inr ⟨t, by simp, hnew_edge p hp⟩
  · intro p hp
    simp only at hp
    rw [hq, hlist] at hp
    rcases List.mem_append.1 hp with hp | hp
    · exact hreach p hp
    · exact Relation.ReflTransGen.tail (hreach t ht_old) (hnew_edge p hp)
  · intro t' ht' a ha
    rw [hq, hlist]
    rcases List.mem_append.1 ht' with ht' | ht'
    · exact List.mem_append_left _ (hclosed t' ht' a ha)
    · have : t' = t := by simpa using ht'
      subst this
      obtain ⟨d, hd, rfl, hp⟩ := ha
      have hm := hall d hd (by rw [e_pass]; exact hp)
      rw [hmk, e_tb, hmarks] at hm
      exact List.mem_append.2 hm
  · rw [hq, hlist]
    exact List.mem_append_left _ hstart
theorem cells_length (M : Matrix) : M.cells.length = M.R.toNat ^ 3 := by
  unfold Matrix.cells
  simp only [List.length_flatMap, List.length_map, List.length_range, Function.comp_def,
    List.map_const', List.sum_replicate, smul_eq_mul]
  ring

theorem length_le_cube (R : Int) (l : List Point) (hnd : l.Nodup)
    (hv : ∀ p ∈ l, 0 ≤ p.x ∧ p.x < R ∧ 0 ≤ p.y ∧ p.y < R ∧ 0 ≤ p.z ∧ p.z < R) :
    l.length ≤ R.toNat ^ 3 := by
  have hsub : l ⊆ (⟨R, fun _ _ _ => 0, none, -1, -1, -1, -1⟩ : Matrix).cells := by
    intro p hp
    rw [mem_cells]
    exact hv p hp
  have := (List.subperm_of_subset hnd hsub).length_le
  rw [cells_length] at this
  exact this

/-- With more iterations allowed than the grid has cells beyond the processed
ones, the `while` loop ends with an empty queue and the invariant. -/
theorem BFS_loop_total (rc : ReachCell) (deltas : List Point) (m : Matrix) (R : Int)
    (w0 : List Action) (p0 : Point) (fuel : Nat) :
    ∀ (st : BFSState) (D : List Point), BFSInv m R deltas w0 p0 D st →
      R.toNat ^ 3 < fuel + D.length →
      ∃ S' D', StupidSolver2.BFS_loop rc deltas fuel st = some S' ∧
        BFSInv m R deltas w0 p0 D' ([], S') := by
  induction fuel with
  | zero =>
    intro st D h hlt
    have h1 := length_le_cube R (D ++ st.1) h.nodup h.valid
    rw [List.length_append] at h1
    omega
  | succ fuel ih =>
    intro st D h hlt
    obtain ⟨q, S⟩ := st
    cases q with
    | nil => exact ⟨S, D, rfl, h⟩
    | cons t rest =>
      have h1 := length_le_cube R (D ++ t :: rest) h.nodup h.valid
      rw [List.length_append, List.length_cons] at h1
      have hinv := visit_inv rc deltas m R w0 p0 D t rest S h
      obtain ⟨S', D', hrun, hfin⟩ := ih (StupidSolver2.visit rc deltas t rest S) (D ++ [t]) hinv
        (by rw [List.length_append, List.length_singleton]; omega)
      exact ⟨S', D', hrun, hfin⟩

theorem BFS_loop_more_fuel (rc : ReachCell) (deltas : List Point) (fuel : Nat) :
    ∀ (st : BFSState) (S' : StupidSolver2) (k : Nat),
      StupidSolver2.BFS_loop rc deltas fuel st = some S' →
      StupidSolver2.BFS_loop rc deltas (fuel + k) st = some S' := by
  induction fuel with
  | zero =>
    intro st S' k h
    exact Option.noConfusion h
  | succ fuel ih =>
    intro st S' k h
    obtain ⟨q, S⟩ := st
    have e : fuel + 1 + k = (fuel + k) + 1 := by omega
    rw [e]
    cases q with
    | nil => exact h
    | cons t rest => exact ih _ S' k h

/-- From a valid start cell, with more iterations allowed than the grid has
cells, `BFS` returns, and its result satisfies the loop invariant with an empty
queue. -/
theorem BFS_total (rc : ReachCell) (deltas : List Point) (S : StupidSolver2) (p0 : Point)
    (fuel : Nat) (hcur : S.cur.R = S.R)
    (hp0 : 0 ≤ p0.x ∧ p0.x < S.R ∧ 0 ≤ p0.y ∧ p0.y < S.R ∧ 0 ≤ p0.z ∧ p0.z < S.R)
    (hfuel : S.R.toNat ^ 3 < fuel) :
    ∃ S' D, StupidSolver2.BFS rc deltas fuel S p0 = some S' ∧
      BFSInv S.m S.R deltas S.w p0 D ([], S') := by
  unfold StupidSolver2.BFS
  simp only
  obtain ⟨pm, pR, pcur, pw, -, hpush⟩ :=
    push_spec ([], { S with temp_bfs := S.temp_bfs.clear S.R }) p0
  simp only at pm pR pcur pw hpush
  have hclear : ∀ q, (S.temp_bfs.clear S.R).cell q = 0 := fun q => rfl
  rcases hpush with ⟨hne, -⟩ | ⟨-, hq, hmk⟩
  · exact absurd (hclear p0) hne
  · apply BFS_loop_total rc deltas S.m S.R S.w p0 fuel _ []
    · refine ⟨pm, pR, by rw [pcur]; exact hcur, ⟨[], by rw [pw]; simp, rfl⟩, ?_, ?_, ?_, ?_, ?_,
        ?_, ?_⟩
      · intro p
        rw [hmk p, hq]
        simp [hclear p]
      · rw [hq]; simp
      · intro p hp
        rw [hq] at hp
        have : p = p0 := by simpa using hp
        rw [this]; exact hp0
      · intro p hp
        rw [hq] at hp
        left; simpa using hp
      · intro p hp
        rw [hq] at hp
        have : p = p0 := by simpa using hp
        rw [this]
      · intro t ht
        exact absurd ht (List.not_mem_nil t)
      · rw [hq]; simp
    · simpa using hfuel

theorem code_edge_iff (m : Matrix) (R : Int) (deltas : List Point) (hd : IsDeltas26 deltas)
    (t a : Point) : code_edge m R deltas t a ↔ bfs_edge m R t a := by
  constructor
  · rintro ⟨d, hmem, rfl, ht⟩
    have hu := (hd d).1 hmem
    have hv := edge_test_valid m R t d ht
    simp only [edge_test, Bool.and_eq_true, decide_eq_true_eq] at ht
    refine ⟨d, hu, rfl, hv, ht.1.2, ?_⟩
    cases d with
    | mk x y z => exact (subdeltas_check_unit x y z _ hu.1 hu.2.1 hu.2.2.1).1 ht.2
  · rintro ⟨d, hu, rfl, hv, hfill, hsub⟩
    refine ⟨d, (hd d).2 hu, rfl, ?_⟩
    simp only [edge_test, Bool.and_eq_true, decide_eq_true_eq]
    refine ⟨⟨hv, hfill⟩, ?_⟩
    cases d with
    | mk x y z => exact (subdeltas_check_unit x y z _ hu.1 hu.2.1 hu.2.2.1).2 hsub

theorem code_reach_iff (m : Matrix) (R : Int) (deltas : List Point) (hd : IsDeltas26 deltas)
    (p0 p : Point) :
    Relation.ReflTransGen (code_edge m R deltas) p0 p ↔ bfs_reachable m R p0 p := by
  unfold bfs_reachable
  constructor
  · intro h
    exact Relation.ReflTransGen.mono (fun t a hta => (code_edge_iff m R deltas hd t a).1 hta) h
  · intro h
    exact Relation.ReflTransGen.mono (fun t a hta => (code_edge_iff m R deltas hd t a).2 hta) h

theorem deltas26_ok : IsDeltas26 deltas26 := by
  intro d
  constructor
  · intro h
    have h1 := (List.mem_filter.1 h).1
    have h2 := of_decide_eq_true (List.mem_filter.1 h).2
    refine ⟨?_, ?_, ?_, h2⟩
    all_goals
      simp only [unit_offsets, List.mem_flatMap, List.mem_map, List.mem_cons,
        List.mem_singleton, List.not_mem_nil, or_false] at h1
      obtain ⟨x, hx, y, hy, z, hz, rfl⟩ := h1
      simp only
      tauto
  · rintro ⟨hx, hy, hz, hne⟩
    refine List.mem_filter.2 ⟨?_, decide_eq_true hne⟩
    cases d with
    | mk x y z =>
      simp only at hx hy hz
      rcases hx with rfl | rfl | rfl <;> rcases hy with rfl | rfl | rfl <;>
        rcases hz with rfl | rfl | rfl <;> decide

/-- At the end of the loop the processed cells are the cells reachable through
the steps the code takes. -/
theorem BFSInv_final (m : Matrix) (R : Int) (deltas : List Point) (w0 : List Action)
    (p0 : Point) (D : List Point) (S' : StupidSolver2)
    (h : BFSInv m R deltas w0 p0 D ([], S')) (p : Point) :
    p ∈ D ↔ Relation.ReflTransGen (code_edge m R deltas) p0 p := by
  have hstart : p0 ∈ D := by simpa using h.start
  constructor
  · intro hp
    exact h.reach p (by simpa using hp)
  · intro hr
    induction hr with
    | refl => exact hstart
    | tail _ hbc ih =>
      have := h.closed _ ih _ hbc
      simpa using this

theorem eq_singleton_of_nodup {α : Type} (l : List α) (a : α) (hnd : l.Nodup)
    (hmem : ∀ p, p ∈ l ↔ p = a) : l = [a] := by
  match l, hnd, hmem with
  | [], _, hmem => exact absurd ((hmem a).2 rfl) (List.not_mem_nil a)
  | [x], _, hmem =>
    have : x = a := (hmem x).1 (List.mem_singleton.2 rfl)
    rw [this]
  | x :: y :: rest, hnd, hmem =>
    have hx : x = a := (hmem x).1 (List.mem_cons_self x _)
    have hy : y = a := (hmem y).1 (List.mem_cons_of_mem x (List.mem_cons_self y rest))
    have hne : x ≠ y := by
      intro e
      have := (List.nodup_cons.1 hnd).1
      rw [e] at this
      exact this (List.mem_cons_self y rest)
    exact absurd (hx.trans hy.symm) hne

/-! ## Termination, corner cutting and the fills of the solver -/

/-- C20: from a valid start cell, on a grid of resolution `R`, `BFS` returns
after dequeuing at most `R^3` cells (more allowed iterations do not change the
result); `push` enqueues a cell only while its `temp_bfs` mark is clear and
marks it, so no cell is dequeued twice. -/
theorem BFS_terminates (rc : ReachCell) (deltas : List Point) (S : StupidSolver2) (p0 : Point)
    (fuel : Nat) (hcur : S.cur.R = S.R) (hp0 : S.cur.is_valid p0 = true)
    (hfuel : S.R.toNat ^ 3 < fuel) :
    (∃ S', StupidSolver2.BFS rc deltas fuel S p0 = some S' ∧
      (∀ k, StupidSolver2.BFS rc deltas (fuel + k) S p0 = some S') ∧
      ∃ new, S'.w = S.w ++ new ∧ (fills new).Nodup ∧ (fills new).length ≤ S.R.toNat ^ 3 ∧
        p0 ∈ fills new) ∧
    (∀ (st : BFSState) (p : Point),
      (st.2.temp_bfs.cell p ≠ 0 → StupidSolver2.push st p = st) ∧
      (st.2.temp_bfs.cell p = 0 → (StupidSolver2.push st p).1 = st.1 ++ [p] ∧
        (StupidSolver2.push st p).2.temp_bfs.cell p ≠ 0)) := by
  constructor
  · have hv : 0 ≤ p0.x ∧ p0.x < S.R ∧ 0 ≤ p0.y ∧ p0.y < S.R ∧ 0 ≤ p0.z ∧ p0.z < S.R := by
      simp only [Matrix.is_valid, Bool.and_eq_true, decide_eq_true_eq, hcur] at hp0
      omega
    obtain ⟨S', D, hrun, hinv⟩ := BFS_total rc deltas S p0 fuel hcur hv hfuel
    refine ⟨S', hrun, ?_, ?_⟩
    · intro k
      unfold StupidSolver2.BFS at hrun ⊢
      exact BFS_loop_more_fuel rc deltas fuel _ S' k hrun
    · obtain ⟨new, hw, hf⟩ := hinv.trace
      refine ⟨new, hw, ?_, ?_, ?_⟩
      · rw [hf]; simpa using hinv.nodup
      · rw [hf]
        have := length_le_cube S.R (D ++ []) hinv.nodup hinv.valid
        simpa using this
      · rw [hf]; simpa using hinv.start
  · intro st p
    obtain ⟨-, -, -, -, -, hpush⟩ := push_spec st p
    constructor
    · intro hne
      rcases hpush with ⟨-, h⟩ | ⟨h, -⟩
      · exact h
      · exact absurd h hne
    · intro hz
      rcases hpush with ⟨h, -⟩ | ⟨-, hq, hmk⟩
      · exact absurd hz h
      · exact ⟨hq, (hmk p).2 (Or.inr rfl)⟩

/-- C20 on the two-cell grid of resolution 2, from `(0,0,0)`, with 9 allowed
iterations: `BFS` returns. -/
theorem BFS_terminates_witness :
    (StupidSolver2.BFS (fun _ t _ _ => t) deltas26 9 (solverOn originPair).prepared
      ⟨0, 0, 0⟩).isSome = true := by
  obtain ⟨S', h, -⟩ := (BFS_terminates (fun _ t _ _ => t) deltas26
    (solverOn originPair).prepared ⟨0, 0, 0⟩ 9 rfl (by decide) (by decide)).1
  rw [h]
  rfl

/-- C13: while a dequeued cell `t` is processed, every cell `a` that is
enqueued is `t + d` for one of the 26 directions `d`, lies in the grid, is
filled in the target, and every sub-vector cell `t + s` of the step is filled
in the target; in a whole run every processed cell other than the start has
such a processed predecessor; and where `(1,0,1)` is filled but `(1,0,0)` and
`(0,0,1)` are empty there is no edge from `(0,0,0)` to `(1,0,1)`. -/
theorem BFS_no_corner_cutting (rc : ReachCell) (deltas : List Point) (hd : IsDeltas26 deltas)
    (S : StupidSolver2) (p0 : Point) (fuel : Nat) (hcur : S.cur.R = S.R)
    (hp0 : S.cur.is_valid p0 = true) (hfuel : S.R.toNat ^ 3 < fuel) :
    (∀ (t : Point) (q : List Point) (S1 : StupidSolver2),
      ∃ new, (StupidSolver2.visit rc deltas t q S1).1 = q ++ new ∧
        ∀ a ∈ new, bfs_edge S1.m S1.cur.R t a) ∧
    (∃ S', StupidSolver2.BFS rc deltas fuel S p0 = some S' ∧
      ∃ new, S'.w = S.w ++ new ∧
        ∀ a ∈ fills new, a = p0 ∨ ∃ t ∈ fills new, bfs_edge S.m S.R t a) ∧
    (∀ (m : Matrix) (R : Int), m.cell ⟨1, 0, 1⟩ ≠ 0 → m.cell ⟨1, 0, 0⟩ = 0 →
      m.cell ⟨0, 0, 1⟩ = 0 → ¬ bfs_edge m R ⟨0, 0, 0⟩ ⟨1, 0, 1⟩) := by
  refine ⟨?_, ?_, ?_⟩
  · intro t q S1
    unfold StupidSolver2.visit
    simp only
    obtain ⟨fm, -, fcur, -, -, new, hq, -, hnew, -, -⟩ := visit_fold_spec t deltas
      (q, ({ ({ (S1.reach_cell rc t false) with
        w := (S1.reach_cell rc t false).w ++
          [Action.fill (S1.reach_cell rc t false).b.pos t] } : StupidSolver2) with
        cur := (S1.reach_cell rc t false).cur.set t 1 } : StupidSolver2))
    refine ⟨new, hq, ?_⟩
    intro a ha
    obtain ⟨-, d, hmem, rfl, hp⟩ := hnew a ha
    rw [passes_eq_edge_test] at hp
    exact (code_edge_iff S1.m S1.cur.R deltas hd t (t + d)).1 ⟨d, hmem, rfl, hp⟩
  · have hv : 0 ≤ p0.x ∧ p0.x < S.R ∧ 0 ≤ p0.y ∧ p0.y < S.R ∧ 0 ≤ p0.z ∧ p0.z < S.R := by
      simp only [Matrix.is_valid, Bool.and_eq_true, decide_eq_true_eq, hcur] at hp0
      omega
    obtain ⟨S', D, hrun, hinv⟩ := BFS_total rc deltas S p0 fuel hcur hv hfuel
    obtain ⟨new, hw, hf⟩ := hinv.trace
    refine ⟨S', hrun, new, hw, ?_⟩
    intro a ha
    rw [hf] at ha ⊢
    rcases hinv.parent a (by simpa using ha) with h0 | ⟨t, ht, he⟩
    · exact Or.inl h0
    · exact Or.inr ⟨t, ht, (code_edge_iff S.m S.R deltas hd t a).1 he⟩
  · intro m R h101 h100 h001 hedge
    obtain ⟨d, -, hda, -, -, hsub⟩ := hedge
    cases d with
    | mk x y z =>
      have hx := congrArg Point.x hda
      have hy := congrArg Point.y hda
      have hz := congrArg Point.z hda
      change (1 : Int) = 0 + x at hx
      change (0 : Int) = 0 + y at hy
      change (1 : Int) = 0 + z at hz
      have ex : x = 1 := by omega
      have ey : y = 0 := by omega
      have ez : z = 1 := by omega
      subst ex ey ez
      have := hsub.1 (by decide)
      simp only [decide_eq_true_eq] at this
      exact this h100

/-- C13 on the grid of resolution 2 with `(0,0,0)` and `(1,0,1)` filled, from
`(0,0,0)`, with 9 allowed iterations: `BFS` returns, and there is no edge from
`(0,0,0)` to `(1,0,1)`. -/
theorem BFS_no_corner_cutting_witness :
    (StupidSolver2.BFS (fun _ t _ _ => t) deltas26 9 (solverOn cornerGrid).prepared
      ⟨0, 0, 0⟩).isSome = true ∧
    ¬ bfs_edge cornerGrid 2 ⟨0, 0, 0⟩ ⟨1, 0, 1⟩ := by
  have h := BFS_no_corner_cutting (fun _ t _ _ => t) deltas26 deltas26_ok
    (solverOn cornerGrid).prepared ⟨0, 0, 0⟩ 9 rfl (by decide) (by decide)
  constructor
  · obtain ⟨S', hrun, -⟩ := h.2.1
    rw [hrun]
    rfl
  · exact h.2.2 cornerGrid 2 (by decide) (by decide) (by decide)
/-- C14: on a target of resolution `R ≤ 250` with a filled ground cell, `solve`
returns; the `fill` calls it makes target exactly the cells reachable from the
start cell through the edge relation, each once; its last call is
`reach_cell` to `(0,0,0)` with `exact = true`, after which the bot is at the
origin if the planner ends exact moves at their destination; and on a target
whose only filled cell is `(2,0,3)` there is exactly one `fill`, targeting
`(2,0,3)`. -/
theorem solve_fills_reachable (rc : ReachCell) (deltas : List Point) (hd : IsDeltas26 deltas)
    (S : StupidSolver2) (fuel : Nat) (hR : S.R ≤ 250)
    (hex : ∃ x z : Int, 0 ≤ x ∧ x < S.R ∧ 0 ≤ z ∧ z < S.R ∧ S.m.m x 0 z ≠ 0)
    (hfuel : S.R.toNat ^ 3 < fuel) :
    ∃ (x0 z0 : Int) (S' : StupidSolver2) (new : List Action) (pos : Point),
      S.start = some ⟨x0, 0, z0⟩ ∧
      StupidSolver2.solve rc deltas fuel S = Outcome.done S' ∧
      S'.w = S.w ++ new ∧
      (fills new).Nodup ∧
      (∀ p, p ∈ fills new ↔ bfs_reachable S.m S.R ⟨x0, 0, z0⟩ p) ∧
      new.getLast? = some (Action.reach_cell pos ⟨0, 0, 0⟩ true) ∧
      ((∀ src env, rc src ⟨0, 0, 0⟩ env true = ⟨0, 0, 0⟩) → S'.b.pos = ⟨0, 0, 0⟩) ∧
      ((∀ x y z : Int, 0 ≤ x → x < S.R → 0 ≤ y → y < S.R → 0 ≤ z → z < S.R →
          (S.m.m x y z ≠ 0 ↔ (x = 2 ∧ y = 0 ∧ z = 3))) →
        fills new = [⟨2, 0, 3⟩]) := by
  obtain ⟨x0, z0, hstart, hx0, hx, hz0, hz, hfill, -⟩ := start_of_filled S hR hex
  obtain ⟨S2, D, hbfs, hinv⟩ := BFS_total rc deltas S.prepared ⟨x0, 0, z0⟩ fuel rfl
    ⟨hx0, hx, le_refl 0, by show (0 : Int) < S.R; omega, hz0, hz⟩ hfuel
  obtain ⟨nw, hw, hf⟩ := hinv.trace
  have hfills : fills (nw ++ [Action.reach_cell S2.b.pos ⟨0, 0, 0⟩ true]) = D := by
    simp only [fills, List.filterMap_append] at hf ⊢
    rw [hf]
    simp [Action.fill_target]
  have hmem : ∀ p, p ∈ D ↔ bfs_reachable S.m S.R ⟨x0, 0, z0⟩ p := by
    intro p
    rw [BFSInv_final _ _ _ _ _ _ _ hinv p]
    exact code_reach_iff S.m S.R deltas hd _ p
  have hnd : D.Nodup := by simpa using hinv.nodup
  refine ⟨x0, z0, S2.reach_cell rc ⟨0, 0, 0⟩ true,
    nw ++ [Action.reach_cell S2.b.pos ⟨0, 0, 0⟩ true], S2.b.pos, hstart, ?_, ?_, ?_, ?_, ?_,
    ?_, ?_⟩
  · unfold StupidSolver2.solve
    rw [hstart]
    simp only
    rw [hbfs]
  · simp only [StupidSolver2.reach_cell]
    rw [hw]
    exact List.append_assoc S.w nw _
  · rw [hfills]; exact hnd
  · intro p
    rw [hfills]
    exact hmem p
  · simp
  · intro hexact
    simp only [StupidSolver2.reach_cell]
    exact hexact _ _
  · intro honly
    rw [hfills]
    have h0 : (0 : Int) < S.R := by omega
    have hxz : x0 = 2 ∧ z0 = 3 := by
      have := (honly x0 0 z0 hx0 hx (le_refl 0) h0 hz0 hz).1 hfill
      exact ⟨this.1, this.2.2⟩
    apply eq_singleton_of_nodup D _ hnd
    intro p
    rw [hmem p, hxz.1, hxz.2]
    constructor
    · intro hr
      induction hr with
      | refl => rfl
      | @tail b c _ hbc _ =>
        obtain ⟨d, -, -, hv, hne, -⟩ := hbc
        cases c with
        | mk cx cy cz =>
          have := (honly cx cy cz hv.1 hv.2.1 hv.2.2.1 hv.2.2.2.1 hv.2.2.2.2.1
            hv.2.2.2.2.2).1 hne
          rw [this.1, this.2.1, this.2.2]
    · intro hp
      rw [hp]
      exact Relation.ReflTransGen.refl

/-- C14 on the two-cell grid `(0,0,0)`, `(1,0,0)` with 9 allowed iterations:
`solve` returns. -/
theorem solve_fills_reachable_witness :
    (StupidSolver2.solve (fun _ t _ _ => t) deltas26 9 (solverOn originPair)).is_done = true := by
  obtain ⟨x0, z0, S', new, pos, -, hsolve, -⟩ :=
    solve_fills_reachable (fun _ t _ _ => t) deltas26 deltas26_ok (solverOn originPair) 9
      (by decide) ⟨0, 0, by decide⟩ (by decide)
  rw [hsolve]
  rfl

end Solver
